import Mathlib

/-!
Shallow embedding of src/pcb_simulator.cpp, a single-core round-robin
scheduler simulation, together with proofs of the specification claims.

Modelling conventions:
* C++ int is modelled as Int (no input in scope approaches overflow).
* The process state is the literal string stored by the program
  ("Ready", "Running", "Terminated").
* std::queue of indices is a Lean List with head dequeue and tail enqueue.
* The while loop of kernelSimulator is a fuel-indexed recursion; returning
  some means the loop halted within that many iterations.
* printProcessStates is modelled as returning the data it prints: the tick
  number and the pid-sorted copy of the process vector.
* std::cin token extraction is modelled by a list of Option Int tokens;
  none stands for a malformed (non-integer) token or end of input.
* Exit status 0 with trace output is Except.ok, exit status 1 with a
  diagnostic on the error channel is Except.error.
-/

/-- The PCB structure of the program: pid, state string, program counter,
and total work units. -/
structure PCB where
  pid : Int
  state : String
  pc : Int
  total_work : Int
deriving DecidableEq, Repr

attribute [ext] PCB

/-- The PCB constructor: PCB(process_id, work_units) starts Ready at pc 0. -/
def mkPCB (process_id work_units : Int) : PCB :=
  { pid := process_id, state := "Ready", pc := 0, total_work := work_units }

/-- Default record used only to give List.getD a value; never observed in a
reachable state (every queue index is in range). -/
def dfltPCB : PCB := { pid := 0, state := "", pc := 0, total_work := 0 }

/-- Insert a record into a pid-sorted list, keeping it sorted. -/
def insertByPid (p : PCB) : List PCB → List PCB
  | [] => [p]
  | q :: qs => if p.pid ≤ q.pid then p :: q :: qs else q :: insertByPid p qs

/-- The std::sort call of printProcessStates: sort records by ascending pid. -/
def sortByPid : List PCB → List PCB
  | [] => []
  | p :: ps => insertByPid p (sortByPid ps)

/-- printProcessStates: emits the tick header and one line per process,
sorted by ascending pid.  Modelled as the emitted data: the tick number and
the sorted copy of the records.  The input vector is passed by const
reference and never mutated; here the function is pure. -/
def printProcessStates (pcbs : List PCB) (timeSlice : Nat) : Nat × List PCB :=
  (timeSlice, sortByPid pcbs)

/-- allProcessesTerminated: true iff every record's state is "Terminated". -/
def allProcessesTerminated (pcbs : List PCB) : Bool :=
  pcbs.all (fun pcb => pcb.state == "Terminated")

/-- The result of one iteration of the while loop body of kernelSimulator:
the updated vector, the updated ready queue, the trace block printed this
tick, and the dispatched index (none when the ready queue was empty). -/
structure TickResult where
  pcbs : List PCB
  readyQueue : List Nat
  block : Nat × List PCB
  dispatched : Option Nat
deriving DecidableEq, Repr

/-- One iteration of the while loop body of kernelSimulator, after the
currentTime increment: dequeue the front index if available, set the record
Running, advance pc by min(timeQuantum, total_work - pc), set Terminated if
pc reached total_work, print, then requeue as Ready if unfinished. -/
def tickStep (timeQuantum : Int) (pcbs : List PCB) (readyQueue : List Nat)
    (currentTime : Nat) : TickResult :=
  match readyQueue with
  | [] =>
      { pcbs := pcbs, readyQueue := [],
        block := printProcessStates pcbs currentTime, dispatched := none }
  | currentProcessIndex :: restQueue =>
      let p0 := pcbs.getD currentProcessIndex dfltPCB
      let running : PCB := { p0 with state := "Running" }
      let workDone : Int := min timeQuantum (running.total_work - running.pc)
      let advanced : PCB := { running with pc := running.pc + workDone }
      let finalized : PCB :=
        if advanced.total_work ≤ advanced.pc then
          { advanced with state := "Terminated" }
        else advanced
      let pcbs1 := pcbs.set currentProcessIndex finalized
      let blk := printProcessStates pcbs1 currentTime
      if finalized.pc < finalized.total_work then
        { pcbs := pcbs1.set currentProcessIndex { finalized with state := "Ready" },
          readyQueue := restQueue ++ [currentProcessIndex],
          block := blk, dispatched := some currentProcessIndex }
      else
        { pcbs := pcbs1, readyQueue := restQueue,
          block := blk, dispatched := some currentProcessIndex }

/-- Result of a halted kernelSimulator run: the final records, the trace
blocks in tick order, and per tick the dispatched index (none for a tick on
which the ready queue was empty). -/
structure SimResult where
  pcbs : List PCB
  trace : List (Nat × List PCB)
  dispatches : List (Option Nat)
deriving DecidableEq, Repr

/-- The while loop of kernelSimulator as a fuel-indexed recursion: while not
all processes are Terminated, increment the time and run one tickStep.
Returns none when the fuel runs out before the loop exits. -/
def simLoop (timeQuantum : Int) : Nat → List PCB → List Nat → Nat → Option SimResult
  | 0, pcbs, _, _ =>
      if allProcessesTerminated pcbs then
        some { pcbs := pcbs, trace := [], dispatches := [] }
      else none
  | fuel + 1, pcbs, readyQueue, currentTime =>
      if allProcessesTerminated pcbs then
        some { pcbs := pcbs, trace := [], dispatches := [] }
      else
        let r := tickStep timeQuantum pcbs readyQueue (currentTime + 1)
        match simLoop timeQuantum fuel r.pcbs r.readyQueue (currentTime + 1) with
        | none => none
        | some s =>
            some { pcbs := s.pcbs, trace := r.block :: s.trace,
                   dispatches := r.dispatched :: s.dispatches }

/-- kernelSimulator: initializes the ready queue with all indices in input
order (0, 1, ..., n-1) and runs the scheduling loop from time 0. -/
def kernelSimulator (pcbs : List PCB) (timeQuantum : Int) (fuel : Nat) :
    Option SimResult :=
  simLoop timeQuantum fuel pcbs (List.range pcbs.length) 0

/-- The per-process ingestion loop of main: for each of the n remaining
processes read a pid token and a work token, reject a malformed pair, then
reject work <= 0, then reject a pid already seen, else record the pid and
append PCB(pid, work). -/
def ingestLoop : Nat → List (Option Int) → List Int → List PCB →
    Except String (List PCB)
  | 0, _, _, pcbs => .ok pcbs
  | n + 1, some pid :: some work :: rest, pids, pcbs =>
      if work ≤ 0 then .error "Error: Invalid work units"
      else if pid ∈ pids then .error "Error: Duplicate PID detected"
      else ingestLoop n rest (pids ++ [pid]) (pcbs ++ [mkPCB pid work])
  | _ + 1, _, _, _ => .error "Error: Invalid input format for process data"

/-- Sum of remaining work over all records, as a Nat; used as loop fuel. -/
def totalWork (pcbs : List PCB) : Nat :=
  (pcbs.map (fun p => (p.total_work - p.pc).toNat)).sum

/-- main: read the process count (malformed or <= 0 rejects), ingest the n
process entries, then run kernelSimulator with time quantum 2 and report
the trace followed by the closing line.  Except.error e is exit status 1
with diagnostic e and no trace; Except.ok is exit status 0 with the line
"All processes completed." after the trace.  The fuel totalWork is proved
sufficient below, so the fuel-exhaustion branch is unreachable. -/
def mainSim (tokens : List (Option Int)) : Except String SimResult :=
  match tokens with
  | some numProcesses :: rest =>
      if numProcesses ≤ 0 then .error "Error: Invalid number of processes"
      else
        match ingestLoop numProcesses.toNat rest [] [] with
        | .error e => .error e
        | .ok pcbs =>
            match kernelSimulator pcbs 2 (totalWork pcbs) with
            | some res => .ok res
            | none => .error "Fuel exhausted"
  | _ => .error "Error: Invalid number of processes"

/-- The pids of a record list, in order. -/
def pidsOf (s : List PCB) : List Int := s.map (fun p => p.pid)

/-- The pid stored at an index of the record list. -/
def pidAt (s : List PCB) (i : Nat) : Int := (s.getD i dfltPCB).pid

/-- A freshly ingested valid process list: nonempty, every record Ready at
pc 0 with positive total work, and pids pairwise distinct. -/
def ValidStart (pcbs : List PCB) : Prop :=
  pcbs ≠ [] ∧
  (∀ p ∈ pcbs, p.state = "Ready" ∧ p.pc = 0 ∧ 0 < p.total_work) ∧
  (pidsOf pcbs).Nodup

/-- Read n (pid, work) token pairs from the stream, returning the pairs and
the unread remainder; none when a token is malformed or missing. -/
def takePairs : Nat → List (Option Int) → Option (List (Int × Int) × List (Option Int))
  | 0, ts => some ([], ts)
  | n + 1, some pid :: some work :: ts =>
      match takePairs n ts with
      | some (pairs, rest) => some ((pid, work) :: pairs, rest)
      | none => none
  | _ + 1, _ => none

/-- A token stream passing every ingestion check: a well-formed count token
with positive value, n well-formed (pid, work) pairs, all works positive,
and all pids distinct. -/
def ValidTokens (tokens : List (Option Int)) : Prop :=
  ∃ n rest pairs rest2,
    tokens = some n :: rest ∧ 0 < n ∧
    takePairs n.toNat rest = some (pairs, rest2) ∧
    (∀ pw ∈ pairs, 0 < pw.2) ∧
    (pairs.map (fun pw => pw.1)).Nodup

/-- Encode (pid, work) pairs as the token stream main would read. -/
def encodePairs : List (Int × Int) → List (Option Int)
  | [] => []
  | pw :: rest => some pw.1 :: some pw.2 :: encodePairs rest

/-- Number of positions at which two trace blocks disagree on the state
field (blocks of the same run are pid-sorted over the same pid set, so
positions align records of equal pid). -/
def stateDiffs (b1 b2 : List PCB) : Nat :=
  ((b1.zip b2).filter (fun pq => pq.1.state ≠ pq.2.state)).length

/-- Remaining dispatch ticks of one record at quantum 2: the ceiling of the
remaining work divided by 2. -/
def remTicks (p : PCB) : Nat := ((p.total_work - p.pc).toNat + 1) / 2

/-- Wellformedness of one record as maintained by the scheduler between
ticks: positive total work, pc within bounds, the state is Terminated
exactly when pc has reached total_work, and outside a tick the state is
Ready or Terminated. -/
def goodPCB (p : PCB) : Prop :=
  0 < p.total_work ∧ 0 ≤ p.pc ∧ p.pc ≤ p.total_work ∧
  (p.state = "Terminated" ↔ p.pc = p.total_work) ∧
  (p.state = "Ready" ∨ p.state = "Terminated")

/-- The loop invariant of kernelSimulator: every record wellformed, pids
distinct, the queue duplicate-free, and the queue holds exactly the indices
of the non-Terminated records. -/
def SchedInv (pcbs : List PCB) (queue : List Nat) : Prop :=
  (∀ p ∈ pcbs, goodPCB p) ∧
  (pidsOf pcbs).Nodup ∧
  queue.Nodup ∧
  ∀ i, i ∈ queue ↔ i < pcbs.length ∧ (pcbs.getD i dfltPCB).state ≠ "Terminated"

/-- Records of the later collection agree with the earlier one on every pid
other than the excluded one, and no pc decreases. -/
def LinkTo (x : Int) (s1 b : List PCB) : Prop :=
  ∀ p1 ∈ s1, ∀ p2 ∈ b, p1.pid = p2.pid →
    (p1.pid ≠ x → p1 = p2) ∧ p1.pc ≤ p2.pc

/-- Records agree on every pid other than the excluded one, and even the
excluded pid keeps its pc (only its state may change). -/
def RevertTo (x : Int) (b s2 : List PCB) : Prop :=
  ∀ p1 ∈ b, ∀ p2 ∈ s2, p1.pid = p2.pid →
    (p1.pid ≠ x → p1 = p2) ∧ p1.pc = p2.pc

/-- Frame relation between two consecutive trace blocks: records outside
the two dispatched pids are untouched, only the later dispatchee may change
its pc, and no pc decreases. -/
def AdjPidRel (x y : Int) (b1 b2 : List PCB) : Prop :=
  ∀ p1 ∈ b1, ∀ p2 ∈ b2, p1.pid = p2.pid →
    ((p1.pid ≠ x ∧ p1.pid ≠ y) → p1 = p2) ∧
    (p1.pid ≠ y → p1.pc = p2.pc) ∧ p1.pc ≤ p2.pc

/-- The PCB list built by a successful ingestion. -/
def pcbsOfPairs (pairs : List (Int × Int)) : List PCB :=
  pairs.map (fun pw => mkPCB pw.1 pw.2)

/-- Replace the pid of every record by a function of its index, leaving
state, pc and total work untouched. -/
def setPidsAux (g : Nat → Int) : Nat → List PCB → List PCB
  | _, [] => []
  | k, p :: ps => { p with pid := g k } :: setPidsAux g (k + 1) ps

/-- Same records with arbitrarily renamed pids. -/
def setPids (g : Nat → Int) (s : List PCB) : List PCB := setPidsAux g 0 s

/-- The full result of the program on input N=2, (1,3), (2,2): three ticks,
as listed in the specification's Scenario A. -/
def scenarioARun : SimResult :=
  { pcbs := [{ pid := 1, state := "Terminated", pc := 3, total_work := 3 },
             { pid := 2, state := "Terminated", pc := 2, total_work := 2 }],
    trace := [(1, [{ pid := 1, state := "Running", pc := 2, total_work := 3 },
                   { pid := 2, state := "Ready", pc := 0, total_work := 2 }]),
              (2, [{ pid := 1, state := "Ready", pc := 2, total_work := 3 },
                   { pid := 2, state := "Terminated", pc := 2, total_work := 2 }]),
              (3, [{ pid := 1, state := "Terminated", pc := 3, total_work := 3 },
                   { pid := 2, state := "Terminated", pc := 2, total_work := 2 }])],
    dispatches := [some 0, some 1, some 0] }

instance decValidStart (pcbs : List PCB) : Decidable (ValidStart pcbs) := by
  unfold ValidStart
  infer_instance

/-! ### List helper lemmas -/

theorem getD_lt {α : Type} (l : List α) (i : Nat) (d : α) (h : i < l.length) :
    l.getD i d = l[i] := by
  rw [List.getD_eq_getElem?_getD, List.getElem?_eq_getElem h, Option.getD_some]

theorem getD_mem {α : Type} (l : List α) (i : Nat) (d : α) (h : i < l.length) :
    l.getD i d ∈ l := by
  rw [getD_lt l i d h]; exact l.getElem_mem h

theorem getD_set_self {α : Type} (l : List α) (i : Nat) (v d : α)
    (h : i < l.length) : (l.set i v).getD i d = v := by
  rw [getD_lt _ i d (by simpa using h)]
  exact List.getElem_set_self (by simpa using h)

theorem getD_set_ne {α : Type} (l : List α) (i j : Nat) (v d : α)
    (h : i ≠ j) : (l.set i v).getD j d = l.getD j d := by
  rw [List.getD_eq_getElem?_getD, List.getD_eq_getElem?_getD, List.getElem?_set]
  simp [h]

theorem mem_set_elim {α : Type} {l : List α} {i : Nat} {v q : α}
    (h : q ∈ l.set i v) : q = v ∨ q ∈ l := by
  rcases List.mem_iff_getElem.mp h with ⟨n, hn, he⟩
  have hn' : n < l.length := by simpa using hn
  rw [List.getElem_set] at he
  by_cases hin : i = n
  · simp [hin] at he; exact Or.inl he.symm
  · simp [hin] at he; exact Or.inr (he ▸ l.getElem_mem hn')

theorem mem_iff_getD {l : List PCB} {p : PCB} :
    p ∈ l ↔ ∃ j, j < l.length ∧ l.getD j dfltPCB = p := by
  constructor
  · intro h
    rcases List.mem_iff_getElem.mp h with ⟨n, hn, he⟩
    exact ⟨n, hn, by rw [getD_lt _ n _ hn]; exact he⟩
  · rintro ⟨j, hj, he⟩
    exact he ▸ getD_mem l j dfltPCB hj

theorem sum_set_nat (L : List Nat) (n : Nat) (a : Nat) (h : n < L.length) :
    (L.set n a).sum + L.getD n 0 = L.sum + a := by
  induction L generalizing n with
  | nil => simp at h
  | cons x xs ih =>
      cases n with
      | zero => simp [List.getD]; omega
      | succ m =>
          have hm : m < xs.length := by simpa using h
          have hx := ih m hm
          have hg : (x :: xs).getD (m + 1) 0 = xs.getD m 0 := by
            simp [List.getD_eq_getElem?_getD]
          simp only [List.set, List.sum_cons]
          rw [hg]
          omega

/-! ### Sorting lemmas for the trace emitter -/

theorem insertByPid_perm (p : PCB) (l : List PCB) :
    (insertByPid p l).Perm (p :: l) := by
  induction l with
  | nil => simp [insertByPid]
  | cons q qs ih =>
      by_cases h : p.pid ≤ q.pid
      · simp [insertByPid, h]
      · simp only [insertByPid, if_neg h]
        exact List.Perm.trans (ih.cons q) (List.Perm.swap p q qs)

theorem sortByPid_perm (l : List PCB) : (sortByPid l).Perm l := by
  induction l with
  | nil => simp [sortByPid]
  | cons p ps ih =>
      exact (insertByPid_perm p (sortByPid ps)).trans (ih.cons p)

theorem mem_sortByPid {p : PCB} {l : List PCB} : p ∈ sortByPid l ↔ p ∈ l :=
  (sortByPid_perm l).mem_iff

theorem insertByPid_sorted (p : PCB) (l : List PCB)
    (h : l.Pairwise (fun a b => a.pid ≤ b.pid)) :
    (insertByPid p l).Pairwise (fun a b => a.pid ≤ b.pid) := by
  induction l with
  | nil => simp [insertByPid]
  | cons q qs ih =>
      rcases List.pairwise_cons.mp h with ⟨hq, hqs⟩
      by_cases hle : p.pid ≤ q.pid
      · simp only [insertByPid, if_pos hle]
        refine List.pairwise_cons.mpr ⟨?_, h⟩
        intro r hr
        rcases List.mem_cons.mp hr with rfl | hr
        · exact hle
        · exact le_trans hle (hq r hr)
      · simp only [insertByPid, if_neg hle]
        refine List.pairwise_cons.mpr ⟨?_, ih hqs⟩
        intro r hr
        have hr' : r ∈ p :: qs := (insertByPid_perm p qs).mem_iff.mp hr
        rcases List.mem_cons.mp hr' with rfl | hm
        · exact le_of_lt (lt_of_not_le hle)
        · exact hq r hm

theorem sortByPid_sorted (l : List PCB) :
    (sortByPid l).Pairwise (fun a b => a.pid ≤ b.pid) := by
  induction l with
  | nil => simp [sortByPid]
  | cons p ps ih => exact insertByPid_sorted p (sortByPid ps) ih

theorem set_getD_self_eq {α : Type} (l : List α) (i : Nat) (d : α)
    (h : i < l.length) : l.set i (l.getD i d) = l := by
  induction l generalizing i with
  | nil => simp at h
  | cons x xs ih =>
      cases i with
      | zero => simp [List.getD]
      | succ m =>
          have hm : m < xs.length := by simpa using h
          have hg : (x :: xs).getD (m + 1) d = xs.getD m d := by
            simp [List.getD_eq_getElem?_getD]
          simp only [List.set, hg, ih m hm]

theorem pidsOf_set (s : List PCB) (i : Nat) (v : PCB)
    (h : i < s.length) (hpid : v.pid = pidAt s i) :
    pidsOf (s.set i v) = pidsOf s := by
  unfold pidsOf
  rw [List.map_set, hpid]
  have : pidAt s i = (s.map (fun p => p.pid)).getD i 0 := by
    unfold pidAt
    rw [getD_lt _ i dfltPCB h, getD_lt _ i 0 (by simpa using h)]
    simp
  rw [this, set_getD_self_eq _ i 0 (by simpa using h)]

theorem pidAt_congr {s1 s2 : List PCB} (h : pidsOf s1 = pidsOf s2) (j : Nat) :
    pidAt s1 j = pidAt s2 j := by
  have hlen : s1.length = s2.length := by
    have := congrArg List.length h
    simpa [pidsOf] using this
  unfold pidAt
  by_cases hj : j < s1.length
  · have hj2 : j < s2.length := hlen ▸ hj
    rw [getD_lt _ j dfltPCB hj, getD_lt _ j dfltPCB hj2]
    have h1 : (pidsOf s1).getD j 0 = s1[j].pid := by
      rw [getD_lt _ j 0 (by simpa [pidsOf] using hj)]; simp [pidsOf]
    have h2 : (pidsOf s2).getD j 0 = s2[j].pid := by
      rw [getD_lt _ j 0 (by simpa [pidsOf] using hj2)]; simp [pidsOf]
    rw [← h1, ← h2, h]
  · have hj2 : ¬ j < s2.length := hlen ▸ hj
    rw [List.getD_eq_getElem?_getD, List.getD_eq_getElem?_getD,
      List.getElem?_eq_none (by omega), List.getElem?_eq_none (by omega)]

/-! ### One-step characterization of the scheduler body -/

/-- Characterization of tickStep at quantum 2 on a nonempty queue whose head
names an unfinished record: either more than the quantum of work remains and
the record is advanced by 2, traced Running, requeued Ready at the tail; or
the remaining work fits the quantum and the record is completed, traced
Terminated, and dropped from the queue. -/
theorem tickStep_spec (pcbs : List PCB) (i : Nat) (rest : List Nat) (t : Nat)
    (hlt : (pcbs.getD i dfltPCB).pc < (pcbs.getD i dfltPCB).total_work) :
    (2 + (pcbs.getD i dfltPCB).pc < (pcbs.getD i dfltPCB).total_work ∧
      tickStep 2 pcbs (i :: rest) t =
        { pcbs := pcbs.set i { (pcbs.getD i dfltPCB) with
            state := "Ready", pc := (pcbs.getD i dfltPCB).pc + 2 },
          readyQueue := rest ++ [i],
          block := (t, sortByPid (pcbs.set i { (pcbs.getD i dfltPCB) with
            state := "Running", pc := (pcbs.getD i dfltPCB).pc + 2 })),
          dispatched := some i }) ∨
    ((pcbs.getD i dfltPCB).total_work ≤ (pcbs.getD i dfltPCB).pc + 2 ∧
      tickStep 2 pcbs (i :: rest) t =
        { pcbs := pcbs.set i { (pcbs.getD i dfltPCB) with
            state := "Terminated", pc := (pcbs.getD i dfltPCB).total_work },
          readyQueue := rest,
          block := (t, sortByPid (pcbs.set i { (pcbs.getD i dfltPCB) with
            state := "Terminated", pc := (pcbs.getD i dfltPCB).total_work })),
          dispatched := some i }) := by
  set p0 := pcbs.getD i dfltPCB with hp0
  rcases lt_or_le (p0.pc + 2) p0.total_work with hcase | hcase
  · left
    refine ⟨by omega, ?_⟩
    have hmin : min (2 : Int) (p0.total_work - p0.pc) = 2 :=
      min_eq_left (by omega)
    have hnot : ¬ (p0.total_work ≤ p0.pc + 2) := by omega
    simp only [tickStep, printProcessStates, ← hp0, hmin, hnot, if_false,
      ite_false, if_neg hnot, List.set_set]
    simp [hcase, List.set_set]
  · right
    refine ⟨hcase, ?_⟩
    have hmin : min (2 : Int) (p0.total_work - p0.pc) = p0.total_work - p0.pc :=
      min_eq_right (by omega)
    have hsum : p0.pc + (p0.total_work - p0.pc) = p0.total_work := by ring
    simp only [tickStep, printProcessStates, ← hp0, hmin, hsum]
    simp

/-! ### The scheduler invariant -/

theorem allTerm_iff (pcbs : List PCB) :
    allProcessesTerminated pcbs = true ↔ ∀ p ∈ pcbs, p.state = "Terminated" := by
  unfold allProcessesTerminated
  rw [List.all_eq_true]
  constructor
  · intro h p hp; exact beq_iff_eq.mp (h p hp)
  · intro h p hp; exact beq_iff_eq.mpr (h p hp)

theorem allTerm_false_iff (pcbs : List PCB) :
    allProcessesTerminated pcbs = false ↔ ∃ p ∈ pcbs, p.state ≠ "Terminated" := by
  constructor
  · intro h
    by_contra hc
    push_neg at hc
    have ht : allProcessesTerminated pcbs = true := (allTerm_iff pcbs).mpr hc
    rw [ht] at h
    exact Bool.noConfusion h
  · rintro ⟨p, hp, hps⟩
    cases hx : allProcessesTerminated pcbs
    · rfl
    · exact absurd ((allTerm_iff pcbs).mp hx p hp) hps

theorem head_unfinished {pcbs : List PCB} {i : Nat} {rest : List Nat}
    (hInv : SchedInv pcbs (i :: rest)) :
    i < pcbs.length ∧ 0 ≤ (pcbs.getD i dfltPCB).pc ∧
    (pcbs.getD i dfltPCB).pc < (pcbs.getD i dfltPCB).total_work ∧
    0 < (pcbs.getD i dfltPCB).total_work := by
  rcases hInv with ⟨hg, _, _, hmem⟩
  have hi := (hmem i).mp (List.mem_cons_self i rest)
  rcases hi with ⟨hlen, hstate⟩
  have hgood := hg _ (getD_mem pcbs i dfltPCB hlen)
  rcases hgood with ⟨hw, hpc0, hpcle, hiff, _⟩
  refine ⟨hlen, hpc0, ?_, hw⟩
  rcases lt_or_eq_of_le hpcle with h | h
  · exact h
  · exact absurd (hiff.mpr h) hstate

theorem queue_ne_nil {pcbs : List PCB} {queue : List Nat}
    (hInv : SchedInv pcbs queue)
    (hna : allProcessesTerminated pcbs = false) : queue ≠ [] := by
  rcases (allTerm_false_iff pcbs).mp hna with ⟨p, hp, hps⟩
  rcases mem_iff_getD.mp hp with ⟨j, hj, hje⟩
  have : j ∈ queue := (hInv.2.2.2 j).mpr ⟨hj, by rw [hje]; exact hps⟩
  intro hq
  rw [hq] at this
  exact (List.not_mem_nil j) this

theorem getD_map_nat (f : PCB → Nat) (l : List PCB) (i : Nat)
    (h : i < l.length) : (l.map f).getD i 0 = f (l.getD i dfltPCB) := by
  rw [getD_lt _ i 0 (by simpa using h), getD_lt _ i dfltPCB h]
  simp

theorem map_set_eq {α : Type} (s : List PCB) (i : Nat) (v : PCB)
    (f : PCB → α) (h : i < s.length) (hf : f v = f (s.getD i dfltPCB)) :
    (s.set i v).map f = s.map f := by
  rw [List.map_set, hf]
  have hfd : f (s.getD i dfltPCB) = (s.map f).getD i (f dfltPCB) := by
    rw [getD_lt _ i dfltPCB h, getD_lt _ i (f dfltPCB) (by simpa using h)]
    simp
  rw [hfd, set_getD_self_eq _ i (f dfltPCB) (by simpa using h)]

theorem totalWork_set (s : List PCB) (i : Nat) (v : PCB) (h : i < s.length) :
    totalWork (s.set i v) + ((s.getD i dfltPCB).total_work - (s.getD i dfltPCB).pc).toNat
      = totalWork s + (v.total_work - v.pc).toNat := by
  unfold totalWork
  rw [List.map_set]
  have hlen : i < (s.map (fun p => (p.total_work - p.pc).toNat)).length := by
    simpa using h
  have hs := sum_set_nat (s.map (fun p => (p.total_work - p.pc).toNat)) i
    ((v.total_work - v.pc).toNat) hlen
  rw [getD_map_nat _ s i h] at hs
  omega

theorem ready_ne_term : ("Ready" : String) ≠ "Terminated" := by decide

theorem running_ne_term : ("Running" : String) ≠ "Terminated" := by decide

/-- Invariant preservation and strict fuel decrease for a dispatch that does
not finish its process (more than the quantum of work remained). -/
theorem schedInv_cont (pcbs : List PCB) (i : Nat) (rest : List Nat) (v : PCB)
    (hInv : SchedInv pcbs (i :: rest))
    (hc : 2 + (pcbs.getD i dfltPCB).pc < (pcbs.getD i dfltPCB).total_work)
    (hv : v = { (pcbs.getD i dfltPCB) with
      state := "Ready", pc := (pcbs.getD i dfltPCB).pc + 2 }) :
    SchedInv (pcbs.set i v) (rest ++ [i]) ∧
    totalWork (pcbs.set i v) < totalWork pcbs ∧
    pidsOf (pcbs.set i v) = pidsOf pcbs ∧
    (pcbs.set i v).length = pcbs.length ∧
    (pcbs.set i v).map (fun p => p.total_work) = pcbs.map (fun p => p.total_work) := by
  obtain ⟨hlen, hpc0, hlt, hwpos⟩ := head_unfinished hInv
  obtain ⟨hgoodAll, hnodupPid, hnodupQ, hmem⟩ := hInv
  have hiq : i ∉ rest ∧ rest.Nodup := List.nodup_cons.mp hnodupQ
  have hvpc : v.pc = (pcbs.getD i dfltPCB).pc + 2 := by rw [hv]
  have hvtw : v.total_work = (pcbs.getD i dfltPCB).total_work := by rw [hv]
  have hvst : v.state = "Ready" := by rw [hv]
  have hvpid : v.pid = pidAt pcbs i := by rw [hv]; rfl
  refine ⟨⟨?_, ?_, ?_, ?_⟩, ?_, ?_, ?_, ?_⟩
  · intro p hp
    rcases mem_set_elim hp with rfl | hpm
    · refine ⟨by omega, by omega, by omega, ⟨?_, ?_⟩, Or.inl hvst⟩
      · intro h
        rw [hvst] at h
        exact absurd h ready_ne_term
      · intro h
        rw [hvpc, hvtw] at h
        omega
    · exact hgoodAll p hpm
  · rw [pidsOf_set pcbs i v hlen hvpid]
    exact hnodupPid
  · rw [List.nodup_append]
    refine ⟨hiq.2, List.nodup_singleton i, ?_⟩
    intro a ha hb
    rw [List.mem_singleton] at hb
    exact hiq.1 (hb ▸ ha)
  · intro j
    rw [List.length_set]
    by_cases hji : j = i
    · subst hji
      constructor
      · intro _
        refine ⟨hlen, ?_⟩
        rw [getD_set_self pcbs j v dfltPCB hlen, hvst]
        exact ready_ne_term
      · intro _
        exact List.mem_append_right rest (List.mem_singleton.mpr rfl)
    · rw [List.mem_append, List.mem_singleton]
      have hmj := hmem j
      rw [List.mem_cons] at hmj
      rw [getD_set_ne pcbs i j v dfltPCB (fun h => hji h.symm)]
      constructor
      · rintro (hj | hj)
        · exact hmj.mp (Or.inr hj)
        · exact absurd hj hji
      · intro h
        rcases hmj.mpr h with hj | hj
        · exact absurd hj hji
        · exact Or.inl hj
  · have hts := totalWork_set pcbs i v hlen
    rw [hvpc, hvtw] at hts
    omega
  · exact pidsOf_set pcbs i v hlen hvpid
  · exact List.length_set pcbs i v
  · exact map_set_eq pcbs i v _ hlen (by rw [hvtw])

/-- Invariant preservation and strict fuel decrease for a dispatch that
finishes its process (the remaining work fit in the quantum). -/
theorem schedInv_term (pcbs : List PCB) (i : Nat) (rest : List Nat) (v : PCB)
    (hInv : SchedInv pcbs (i :: rest))
    (hv : v = { (pcbs.getD i dfltPCB) with
      state := "Terminated", pc := (pcbs.getD i dfltPCB).total_work }) :
    SchedInv (pcbs.set i v) rest ∧
    totalWork (pcbs.set i v) < totalWork pcbs ∧
    pidsOf (pcbs.set i v) = pidsOf pcbs ∧
    (pcbs.set i v).length = pcbs.length ∧
    (pcbs.set i v).map (fun p => p.total_work) = pcbs.map (fun p => p.total_work) := by
  obtain ⟨hlen, hpc0, hlt, hwpos⟩ := head_unfinished hInv
  obtain ⟨hgoodAll, hnodupPid, hnodupQ, hmem⟩ := hInv
  have hiq : i ∉ rest ∧ rest.Nodup := List.nodup_cons.mp hnodupQ
  have hvpc : v.pc = (pcbs.getD i dfltPCB).total_work := by rw [hv]
  have hvtw : v.total_work = (pcbs.getD i dfltPCB).total_work := by rw [hv]
  have hvst : v.state = "Terminated" := by rw [hv]
  have hvpid : v.pid = pidAt pcbs i := by rw [hv]; rfl
  refine ⟨⟨?_, ?_, ?_, ?_⟩, ?_, ?_, ?_, ?_⟩
  · intro p hp
    rcases mem_set_elim hp with rfl | hpm
    · exact ⟨by omega, by omega, by omega,
        ⟨fun _ => by rw [hvpc, hvtw], fun _ => hvst⟩, Or.inr hvst⟩
    · exact hgoodAll p hpm
  · rw [pidsOf_set pcbs i v hlen hvpid]
    exact hnodupPid
  · exact hiq.2
  · intro j
    rw [List.length_set]
    by_cases hji : j = i
    · subst hji
      constructor
      · intro hj
        exact absurd hj hiq.1
      · rintro ⟨-, hj⟩
        rw [getD_set_self pcbs j v dfltPCB hlen, hvst] at hj
        exact absurd rfl hj
    · have hmj := hmem j
      rw [List.mem_cons] at hmj
      rw [getD_set_ne pcbs i j v dfltPCB (fun h => hji h.symm)]
      constructor
      · intro hj
        exact hmj.mp (Or.inr hj)
      · intro h
        rcases hmj.mpr h with hj | hj
        · exact absurd hj hji
        · exact hj
  · have hts := totalWork_set pcbs i v hlen
    rw [hvpc, hvtw] at hts
    omega
  · exact pidsOf_set pcbs i v hlen hvpid
  · exact List.length_set pcbs i v
  · exact map_set_eq pcbs i v _ hlen (by rw [hvtw])

/-! ### Unfolding the scheduler loop -/

theorem simLoop_all_term (q : Int) (fuel : Nat) (pcbs : List PCB)
    (queue : List Nat) (t : Nat) (h : allProcessesTerminated pcbs = true) :
    simLoop q fuel pcbs queue t =
      some { pcbs := pcbs, trace := [], dispatches := [] } := by
  cases fuel <;> simp [simLoop, h]

theorem simLoop_succ_build (q : Int) (fuel : Nat) (pcbs : List PCB)
    (queue : List Nat) (t : Nat) (s : SimResult)
    (hna : allProcessesTerminated pcbs = false)
    (hs : simLoop q fuel (tickStep q pcbs queue (t + 1)).pcbs
      (tickStep q pcbs queue (t + 1)).readyQueue (t + 1) = some s) :
    simLoop q (fuel + 1) pcbs queue t = some
      { pcbs := s.pcbs,
        trace := (tickStep q pcbs queue (t + 1)).block :: s.trace,
        dispatches := (tickStep q pcbs queue (t + 1)).dispatched :: s.dispatches } := by
  simp only [simLoop, hna]
  rw [hs]
  simp

theorem simLoop_succ_some (q : Int) (fuel : Nat) (pcbs : List PCB)
    (queue : List Nat) (t : Nat) (res : SimResult)
    (hna : allProcessesTerminated pcbs = false)
    (h : simLoop q (fuel + 1) pcbs queue t = some res) :
    ∃ s, simLoop q fuel (tickStep q pcbs queue (t + 1)).pcbs
          (tickStep q pcbs queue (t + 1)).readyQueue (t + 1) = some s ∧
      res = { pcbs := s.pcbs,
              trace := (tickStep q pcbs queue (t + 1)).block :: s.trace,
              dispatches := (tickStep q pcbs queue (t + 1)).dispatched :: s.dispatches } := by
  simp only [simLoop, hna] at h
  cases hsl : simLoop q fuel (tickStep q pcbs queue (t + 1)).pcbs
      (tickStep q pcbs queue (t + 1)).readyQueue (t + 1) with
  | none =>
      rw [hsl] at h
      exact absurd h (by simp)
  | some s =>
      rw [hsl] at h
      refine ⟨s, rfl, ?_⟩
      have := Option.some.inj h
      exact this.symm

theorem allTerm_of_totalWork_zero {pcbs : List PCB}
    (hg : ∀ p ∈ pcbs, goodPCB p) (h : totalWork pcbs = 0) :
    allProcessesTerminated pcbs = true := by
  rw [allTerm_iff]
  intro p hp
  obtain ⟨hw, hpc0, hple, hiff, _⟩ := hg p hp
  have hmem : (p.total_work - p.pc).toNat ∈
      pcbs.map (fun p => (p.total_work - p.pc).toNat) :=
    List.mem_map.mpr ⟨p, hp, rfl⟩
  have hle : (p.total_work - p.pc).toNat ≤ totalWork pcbs :=
    List.single_le_sum (fun x _ => Nat.zero_le x) _ hmem
  exact hiff.mpr (by omega)

/-- Termination of the scheduler loop: from any state satisfying the
invariant, the remaining total work bounds the number of loop iterations. -/
theorem simLoop_total : ∀ (fuel : Nat) (pcbs : List PCB) (queue : List Nat)
    (t : Nat), SchedInv pcbs queue → totalWork pcbs ≤ fuel →
    ∃ res, simLoop 2 fuel pcbs queue t = some res := by
  intro fuel
  induction fuel with
  | zero =>
      intro pcbs queue t hInv hf
      have hz : totalWork pcbs = 0 := Nat.le_zero.mp hf
      exact ⟨_, simLoop_all_term 2 0 pcbs queue t
        (allTerm_of_totalWork_zero hInv.1 hz)⟩
  | succ fuel ih =>
      intro pcbs queue t hInv hf
      cases hterm : allProcessesTerminated pcbs with
      | true => exact ⟨_, simLoop_all_term 2 (fuel + 1) pcbs queue t hterm⟩
      | false =>
          have hne := queue_ne_nil hInv hterm
          cases queue with
          | nil => exact absurd rfl hne
          | cons i rest =>
              obtain ⟨hlen, hpc0, hlt, hwpos⟩ := head_unfinished hInv
              rcases tickStep_spec pcbs i rest (t + 1) hlt with ⟨hc, heq⟩ | ⟨hc, heq⟩
              · obtain ⟨hInv2, hdec, -, -, -⟩ :=
                  schedInv_cont pcbs i rest _ hInv hc rfl
                obtain ⟨s, hs⟩ := ih _ _ (t + 1) hInv2 (by omega)
                refine ⟨_, simLoop_succ_build 2 fuel pcbs (i :: rest) t s hterm ?_⟩
                rw [heq]
                exact hs
              · obtain ⟨hInv2, hdec, -, -, -⟩ :=
                  schedInv_term pcbs i rest _ hInv rfl
                obtain ⟨s, hs⟩ := ih _ _ (t + 1) hInv2 (by omega)
                refine ⟨_, simLoop_succ_build 2 fuel pcbs (i :: rest) t s hterm ?_⟩
                rw [heq]
                exact hs

theorem final_of_allTerm {pcbs : List PCB} (hg : ∀ p ∈ pcbs, goodPCB p)
    (hterm : allProcessesTerminated pcbs = true) :
    ∀ p ∈ pcbs, p.state = "Terminated" ∧ p.pc = p.total_work := by
  intro p hp
  have hst := (allTerm_iff pcbs).mp hterm p hp
  exact ⟨hst, ((hg p hp).2.2.2.1).mp hst⟩

/-- When the loop halts, every record is Terminated with pc equal to its
total work. -/
theorem simLoop_final : ∀ (fuel : Nat) (pcbs : List PCB) (queue : List Nat)
    (t : Nat) (res : SimResult),
    simLoop 2 fuel pcbs queue t = some res → SchedInv pcbs queue →
    ∀ p ∈ res.pcbs, p.state = "Terminated" ∧ p.pc = p.total_work := by
  intro fuel
  induction fuel with
  | zero =>
      intro pcbs queue t res h hInv
      cases hterm : allProcessesTerminated pcbs with
      | false => rw [simLoop, hterm] at h; exact absurd h (by simp)
      | true =>
          rw [simLoop_all_term 2 0 pcbs queue t hterm] at h
          have hres := Option.some.inj h
          rw [← hres]
          exact final_of_allTerm hInv.1 hterm
  | succ fuel ih =>
      intro pcbs queue t res h hInv
      cases hterm : allProcessesTerminated pcbs with
      | true =>
          rw [simLoop_all_term 2 (fuel + 1) pcbs queue t hterm] at h
          have hres := Option.some.inj h
          rw [← hres]
          exact final_of_allTerm hInv.1 hterm
      | false =>
          have hne := queue_ne_nil hInv hterm
          cases queue with
          | nil => exact absurd rfl hne
          | cons i rest =>
              obtain ⟨hlen, hpc0, hlt, hwpos⟩ := head_unfinished hInv
              obtain ⟨s, hs, hres⟩ :=
                simLoop_succ_some 2 fuel pcbs (i :: rest) t res hterm h
              rcases tickStep_spec pcbs i rest (t + 1) hlt with ⟨hc, heq⟩ | ⟨hc, heq⟩
              · rw [heq] at hs
                obtain ⟨hInv2, -, -, -, -⟩ := schedInv_cont pcbs i rest _ hInv hc rfl
                have := ih _ _ (t + 1) s hs hInv2
                rw [hres]
                exact this
              · rw [heq] at hs
                obtain ⟨hInv2, -, -, -, -⟩ := schedInv_term pcbs i rest _ hInv rfl
                have := ih _ _ (t + 1) s hs hInv2
                rw [hres]
                exact this

/-- Every tick of a halted run dispatched exactly one in-range process: the
dispatch list aligns with the trace and never contains none. -/
theorem simLoop_dispatches : ∀ (fuel : Nat) (pcbs : List PCB)
    (queue : List Nat) (t : Nat) (res : SimResult),
    simLoop 2 fuel pcbs queue t = some res → SchedInv pcbs queue →
    res.dispatches.length = res.trace.length ∧
    ∀ d ∈ res.dispatches, ∃ i, d = some i ∧ i < pcbs.length := by
  intro fuel
  induction fuel with
  | zero =>
      intro pcbs queue t res h hInv
      cases hterm : allProcessesTerminated pcbs with
      | false => rw [simLoop, hterm] at h; exact absurd h (by simp)
      | true =>
          rw [simLoop_all_term 2 0 pcbs queue t hterm] at h
          rw [← Option.some.inj h]
          exact ⟨rfl, by intro d hd; exact absurd hd (List.not_mem_nil d)⟩
  | succ fuel ih =>
      intro pcbs queue t res h hInv
      cases hterm : allProcessesTerminated pcbs with
      | true =>
          rw [simLoop_all_term 2 (fuel + 1) pcbs queue t hterm] at h
          rw [← Option.some.inj h]
          exact ⟨rfl, by intro d hd; exact absurd hd (List.not_mem_nil d)⟩
      | false =>
          have hne := queue_ne_nil hInv hterm
          cases queue with
          | nil => exact absurd rfl hne
          | cons i rest =>
              obtain ⟨hlen, hpc0, hlt, hwpos⟩ := head_unfinished hInv
              obtain ⟨s, hs, hres⟩ :=
                simLoop_succ_some 2 fuel pcbs (i :: rest) t res hterm h
              rcases tickStep_spec pcbs i rest (t + 1) hlt with ⟨hc, heq⟩ | ⟨hc, heq⟩
              · rw [heq] at hs hres
                obtain ⟨hInv2, -, -, hlen2, -⟩ := schedInv_cont pcbs i rest _ hInv hc rfl
                obtain ⟨ihlen, ihmem⟩ := ih _ _ (t + 1) s hs hInv2
                rw [hres]
                refine ⟨by simp [ihlen], ?_⟩
                intro d hd
                rcases List.mem_cons.mp hd with rfl | hd2
                · exact ⟨i, rfl, hlen⟩
                · obtain ⟨j, hj, hjl⟩ := ihmem d hd2
                  exact ⟨j, hj, by rw [hlen2] at hjl; exact hjl⟩
              · rw [heq] at hs hres
                obtain ⟨hInv2, -, -, hlen2, -⟩ := schedInv_term pcbs i rest _ hInv rfl
                obtain ⟨ihlen, ihmem⟩ := ih _ _ (t + 1) s hs hInv2
                rw [hres]
                refine ⟨by simp [ihlen], ?_⟩
                intro d hd
                rcases List.mem_cons.mp hd with rfl | hd2
                · exact ⟨i, rfl, hlen⟩
                · obtain ⟨j, hj, hjl⟩ := ihmem d hd2
                  exact ⟨j, hj, by rw [hlen2] at hjl; exact hjl⟩

theorem count_cons_opt (i j : Nat) (l : List (Option Nat)) :
    (some i :: l).count (some j) = l.count (some j) + if i = j then 1 else 0 := by
  rw [List.count_cons]
  by_cases h : i = j <;> simp [h]

theorem remTicks_cont (p0 : PCB) :
    remTicks { p0 with state := "Ready", pc := p0.pc + 2 } =
      ((p0.total_work - (p0.pc + 2)).toNat + 1) / 2 := rfl

theorem remTicks_term (p0 : PCB) :
    remTicks { p0 with state := "Terminated", pc := p0.total_work } = 0 := by
  unfold remTicks
  simp

/-- Dispatch-count law of the loop: from any invariant state, a record at
index j is dispatched exactly ceil(remaining work / 2) more times before the
loop halts. -/
theorem simLoop_counts : ∀ (fuel : Nat) (pcbs : List PCB) (queue : List Nat)
    (t : Nat) (res : SimResult),
    simLoop 2 fuel pcbs queue t = some res → SchedInv pcbs queue →
    ∀ j, j < pcbs.length →
      res.dispatches.count (some j) = remTicks (pcbs.getD j dfltPCB) := by
  intro fuel
  induction fuel with
  | zero =>
      intro pcbs queue t res h hInv j hj
      cases hterm : allProcessesTerminated pcbs with
      | false => rw [simLoop, hterm] at h; exact absurd h (by simp)
      | true =>
          rw [simLoop_all_term 2 0 pcbs queue t hterm] at h
          rw [← Option.some.inj h]
          have hfin := final_of_allTerm hInv.1 hterm _ (getD_mem pcbs j dfltPCB hj)
          unfold remTicks
          simp only [List.count_nil]
          omega
  | succ fuel ih =>
      intro pcbs queue t res h hInv j hj
      cases hterm : allProcessesTerminated pcbs with
      | true =>
          rw [simLoop_all_term 2 (fuel + 1) pcbs queue t hterm] at h
          rw [← Option.some.inj h]
          have hfin := final_of_allTerm hInv.1 hterm _ (getD_mem pcbs j dfltPCB hj)
          unfold remTicks
          simp only [List.count_nil]
          omega
      | false =>
          have hne := queue_ne_nil hInv hterm
          cases queue with
          | nil => exact absurd rfl hne
          | cons i rest =>
              obtain ⟨hlen, hpc0, hlt, hwpos⟩ := head_unfinished hInv
              obtain ⟨s, hs, hres⟩ :=
                simLoop_succ_some 2 fuel pcbs (i :: rest) t res hterm h
              rcases tickStep_spec pcbs i rest (t + 1) hlt with ⟨hc, heq⟩ | ⟨hc, heq⟩
              · rw [heq] at hs hres
                obtain ⟨hInv2, -, -, hlen2, -⟩ := schedInv_cont pcbs i rest _ hInv hc rfl
                have ihc := ih _ _ (t + 1) s hs hInv2 j (by rw [hlen2]; exact hj)
                rw [hres]
                simp only
                rw [count_cons_opt]
                by_cases hji : i = j
                · subst hji
                  rw [getD_set_self pcbs i _ dfltPCB hlen] at ihc
                  rw [ihc, remTicks_cont, if_pos rfl]
                  unfold remTicks
                  omega
                · rw [getD_set_ne pcbs i j _ dfltPCB hji] at ihc
                  rw [ihc, if_neg hji]
                  omega
              · rw [heq] at hs hres
                obtain ⟨hInv2, -, -, hlen2, -⟩ := schedInv_term pcbs i rest _ hInv rfl
                have ihc := ih _ _ (t + 1) s hs hInv2 j (by rw [hlen2]; exact hj)
                rw [hres]
                simp only
                rw [count_cons_opt]
                by_cases hji : i = j
                · subst hji
                  rw [getD_set_self pcbs i _ dfltPCB hlen] at ihc
                  rw [ihc, remTicks_term, if_pos rfl]
                  unfold remTicks
                  omega
                · rw [getD_set_ne pcbs i j _ dfltPCB hji] at ihc
                  rw [ihc, if_neg hji]
                  omega

theorem blockRec_wf_cont (p0 w : PCB)
    (hv : w = { p0 with state := "Running", pc := p0.pc + 2 })
    (hwpos : 0 < p0.total_work) (h0 : 0 ≤ p0.pc)
    (hc : 2 + p0.pc < p0.total_work) :
    0 < w.total_work ∧ 0 ≤ w.pc ∧ w.pc ≤ w.total_work ∧
    (w.state = "Terminated" ↔ w.pc = w.total_work) := by
  have h1 : w.total_work = p0.total_work := by rw [hv]
  have h2 : w.pc = p0.pc + 2 := by rw [hv]
  have h3 : w.state = "Running" := by rw [hv]
  refine ⟨by omega, by omega, by omega, ⟨?_, ?_⟩⟩
  · intro h
    rw [h3] at h
    exact absurd h running_ne_term
  · intro h
    exact absurd h (by omega)

theorem blockRec_wf_term (p0 w : PCB)
    (hv : w = { p0 with state := "Terminated", pc := p0.total_work })
    (hwpos : 0 < p0.total_work) :
    0 < w.total_work ∧ 0 ≤ w.pc ∧ w.pc ≤ w.total_work ∧
    (w.state = "Terminated" ↔ w.pc = w.total_work) := by
  have h1 : w.total_work = p0.total_work := by rw [hv]
  have h2 : w.pc = p0.total_work := by rw [hv]
  have h3 : w.state = "Terminated" := by rw [hv]
  exact ⟨by omega, by omega, by omega, ⟨fun _ => by omega, fun _ => h3⟩⟩

/-- Every trace block of a halted run is wellformed: records within bounds
with the Terminated-iff-done invariant, lines sorted by ascending pid, and
exactly one line per process (the block pids are a permutation of the
collection pids). -/
theorem simLoop_blocks : ∀ (fuel : Nat) (pcbs : List PCB) (queue : List Nat)
    (t : Nat) (res : SimResult),
    simLoop 2 fuel pcbs queue t = some res → SchedInv pcbs queue →
    ∀ b ∈ res.trace,
      (∀ p ∈ b.2, 0 < p.total_work ∧ 0 ≤ p.pc ∧ p.pc ≤ p.total_work ∧
        (p.state = "Terminated" ↔ p.pc = p.total_work)) ∧
      b.2.Pairwise (fun a c => a.pid ≤ c.pid) ∧
      (pidsOf b.2).Perm (pidsOf pcbs) := by
  intro fuel
  induction fuel with
  | zero =>
      intro pcbs queue t res h hInv b hb
      cases hterm : allProcessesTerminated pcbs with
      | false => rw [simLoop, hterm] at h; exact absurd h (by simp)
      | true =>
          rw [simLoop_all_term 2 0 pcbs queue t hterm] at h
          rw [← Option.some.inj h] at hb
          exact absurd hb (List.not_mem_nil b)
  | succ fuel ih =>
      intro pcbs queue t res h hInv b hb
      cases hterm : allProcessesTerminated pcbs with
      | true =>
          rw [simLoop_all_term 2 (fuel + 1) pcbs queue t hterm] at h
          rw [← Option.some.inj h] at hb
          exact absurd hb (List.not_mem_nil b)
      | false =>
          have hne := queue_ne_nil hInv hterm
          cases queue with
          | nil => exact absurd rfl hne
          | cons i rest =>
              obtain ⟨hlen, hpc0, hlt, hwpos⟩ := head_unfinished hInv
              obtain ⟨s, hs, hres⟩ :=
                simLoop_succ_some 2 fuel pcbs (i :: rest) t res hterm h
              rcases tickStep_spec pcbs i rest (t + 1) hlt with ⟨hc, heq⟩ | ⟨hc, heq⟩
              · rw [heq] at hs hres
                obtain ⟨hInv2, -, hpids2, -, -⟩ :=
                  schedInv_cont pcbs i rest _ hInv hc rfl
                rw [hres] at hb
                simp only at hb
                rcases List.mem_cons.mp hb with rfl | hb2
                · refine ⟨?_, sortByPid_sorted _, ?_⟩
                  · intro p hp
                    simp only at hp
                    rcases mem_set_elim (mem_sortByPid.mp hp) with rfl | hpm
                    · exact blockRec_wf_cont (pcbs.getD i dfltPCB) _ rfl hwpos hpc0 hc
                    · obtain ⟨g1, g2, g3, g4, -⟩ := hInv.1 p hpm
                      exact ⟨g1, g2, g3, g4⟩
                  · simp only
                    have hperm := (sortByPid_perm (pcbs.set i
                      { (pcbs.getD i dfltPCB) with
                        state := "Running", pc := (pcbs.getD i dfltPCB).pc + 2 })).map
                      (fun p => p.pid)
                    have hset := pidsOf_set pcbs i
                      { (pcbs.getD i dfltPCB) with
                        state := "Running", pc := (pcbs.getD i dfltPCB).pc + 2 } hlen rfl
                    unfold pidsOf at hset ⊢
                    rw [← hset]
                    exact hperm
                · have := ih _ _ (t + 1) s hs hInv2 b hb2
                  refine ⟨this.1, this.2.1, ?_⟩
                  rw [← hpids2]
                  exact this.2.2
              · rw [heq] at hs hres
                obtain ⟨hInv2, -, hpids2, -, -⟩ :=
                  schedInv_term pcbs i rest _ hInv rfl
                rw [hres] at hb
                simp only at hb
                rcases List.mem_cons.mp hb with rfl | hb2
                · refine ⟨?_, sortByPid_sorted _, ?_⟩
                  · intro p hp
                    simp only at hp
                    rcases mem_set_elim (mem_sortByPid.mp hp) with rfl | hpm
                    · exact blockRec_wf_term (pcbs.getD i dfltPCB) _ rfl hwpos
                    · obtain ⟨g1, g2, g3, g4, -⟩ := hInv.1 p hpm
                      exact ⟨g1, g2, g3, g4⟩
                  · simp only
                    have hperm := (sortByPid_perm (pcbs.set i
                      { (pcbs.getD i dfltPCB) with
                        state := "Terminated", pc := (pcbs.getD i dfltPCB).total_work })).map
                      (fun p => p.pid)
                    have hset := pidsOf_set pcbs i
                      { (pcbs.getD i dfltPCB) with
                        state := "Terminated", pc := (pcbs.getD i dfltPCB).total_work } hlen rfl
                    unfold pidsOf at hset ⊢
                    rw [← hset]
                    exact hperm
                · have := ih _ _ (t + 1) s hs hInv2 b hb2
                  refine ⟨this.1, this.2.1, ?_⟩
                  rw [← hpids2]
                  exact this.2.2

/-! ### Frame relations between consecutive observations -/

theorem pid_inj {s : List PCB} (h : (pidsOf s).Nodup) {p q : PCB}
    (hp : p ∈ s) (hq : q ∈ s) (hpid : p.pid = q.pid) : p = q :=
  List.inj_on_of_nodup_map h hp hq hpid

theorem linkTo_set (s : List PCB) (i : Nat) (w : PCB)
    (hnodup : (pidsOf s).Nodup) (hlen : i < s.length)
    (hpid : w.pid = pidAt s i)
    (hpc : (s.getD i dfltPCB).pc ≤ w.pc) :
    LinkTo (pidAt s i) s (sortByPid (s.set i w)) := by
  intro p1 hp1 p2 hp2 hpideq
  rcases mem_set_elim (mem_sortByPid.mp hp2) with rfl | hp2m
  · refine ⟨fun hx => absurd (hpideq.trans hpid) hx, ?_⟩
    have hgd : s.getD i dfltPCB ∈ s := getD_mem _ _ _ hlen
    have he : p1 = s.getD i dfltPCB :=
      pid_inj hnodup hp1 hgd (by rw [hpideq, hpid]; rfl)
    rw [he]
    exact hpc
  · have he := pid_inj hnodup hp1 hp2m hpideq
    exact ⟨fun _ => he, by rw [he]⟩

theorem revertTo_set (s : List PCB) (i : Nat) (v : PCB)
    (hnodup : (pidsOf s).Nodup) (hlen : i < s.length)
    (hpid : v.pid = pidAt s i) (hpc : v.pc = (s.getD i dfltPCB).pc) :
    RevertTo (pidAt s i) (sortByPid s) (s.set i v) := by
  intro p1 hp1 p2 hp2 hpideq
  have hp1m := mem_sortByPid.mp hp1
  rcases mem_set_elim hp2 with rfl | hp2m
  · have hgd : s.getD i dfltPCB ∈ s := getD_mem _ _ _ hlen
    have he : p1 = s.getD i dfltPCB :=
      pid_inj hnodup hp1m hgd (by rw [hpideq, hpid]; rfl)
    refine ⟨fun hx => absurd (hpideq.trans hpid) hx, ?_⟩
    rw [he, hpc]
  · have he := pid_inj hnodup hp1m hp2m hpideq
    exact ⟨fun _ => he, by rw [he]⟩

theorem revertTo_refl (s : List PCB) (hnodup : (pidsOf s).Nodup) (x : Int) :
    RevertTo x (sortByPid s) s := by
  intro p1 hp1 p2 hp2 hpideq
  have he := pid_inj hnodup (mem_sortByPid.mp hp1) hp2 hpideq
  exact ⟨fun _ => he, by rw [he]⟩

theorem adj_compose (x y : Int) (b1 mid b2 : List PCB)
    (h1 : RevertTo x b1 mid) (h2 : LinkTo y mid b2)
    (hsome : ∀ q : Int, q ∈ pidsOf b1 → q ∈ pidsOf mid) :
    AdjPidRel x y b1 b2 := by
  intro p1 hp1 p2 hp2 hpid
  obtain ⟨q, hq, hqpid⟩ :=
    List.mem_map.mp (hsome p1.pid (List.mem_map.mpr ⟨p1, hp1, rfl⟩))
  have r1 := h1 p1 hp1 q hq hqpid.symm
  have r2 := h2 q hq p2 hp2 (by rw [hqpid]; exact hpid)
  refine ⟨?_, ?_, ?_⟩
  · rintro ⟨hx, hy⟩
    exact (r1.1 hx).trans (r2.1 (by rw [hqpid]; exact hy))
  · intro hy
    rw [r1.2]
    rw [r2.1 (by rw [hqpid]; exact hy)]
  · rw [r1.2]
    exact r2.2

/-- Frame property of the halted run: the first block changes only the
dispatched record relative to the entry state, and any two consecutive
blocks agree outside the two pids dispatched on those two ticks, with pc
unchanged outside the later dispatchee and never decreasing. -/
theorem simLoop_adjacent : ∀ (fuel : Nat) (pcbs : List PCB) (queue : List Nat)
    (t : Nat) (res : SimResult),
    simLoop 2 fuel pcbs queue t = some res → SchedInv pcbs queue →
    (res.trace = [] ∨ ∃ j b trest drest,
        res.trace = b :: trest ∧ res.dispatches = some j :: drest ∧
        j < pcbs.length ∧ LinkTo (pidAt pcbs j) pcbs b.2) ∧
    (∀ k b1 b2 i1 i2, res.trace.get? k = some b1 →
        res.trace.get? (k + 1) = some b2 →
        res.dispatches.get? k = some (some i1) →
        res.dispatches.get? (k + 1) = some (some i2) →
        AdjPidRel (pidAt pcbs i1) (pidAt pcbs i2) b1.2 b2.2) := by
  intro fuel
  induction fuel with
  | zero =>
      intro pcbs queue t res h hInv
      cases hterm : allProcessesTerminated pcbs with
      | false => rw [simLoop, hterm] at h; exact absurd h (by simp)
      | true =>
          rw [simLoop_all_term 2 0 pcbs queue t hterm] at h
          rw [← Option.some.inj h]
          exact ⟨Or.inl rfl, by intro k b1 b2 i1 i2 h1; simp at h1⟩
  | succ fuel ih =>
      intro pcbs queue t res h hInv
      cases hterm : allProcessesTerminated pcbs with
      | true =>
          rw [simLoop_all_term 2 (fuel + 1) pcbs queue t hterm] at h
          rw [← Option.some.inj h]
          exact ⟨Or.inl rfl, by intro k b1 b2 i1 i2 h1; simp at h1⟩
      | false =>
          have hne := queue_ne_nil hInv hterm
          cases queue with
          | nil => exact absurd rfl hne
          | cons i rest =>
              obtain ⟨hlen, hpc0, hlt, hwpos⟩ := head_unfinished hInv
              obtain ⟨s, hs, hres⟩ :=
                simLoop_succ_some 2 fuel pcbs (i :: rest) t res hterm h
              rcases tickStep_spec pcbs i rest (t + 1) hlt with ⟨hc, heq⟩ | ⟨hc, heq⟩
              · -- continuing dispatch
                rw [heq] at hs hres
                simp only at hs hres
                obtain ⟨hInv2, -, hpids2, hlen2, -⟩ :=
                  schedInv_cont pcbs i rest _ hInv hc rfl
                obtain ⟨ihFirst, ihAdj⟩ := ih _ _ (t + 1) s hs hInv2
                have htr : res.trace = (t + 1, sortByPid (pcbs.set i
                    { (pcbs.getD i dfltPCB) with
                      state := "Running", pc := (pcbs.getD i dfltPCB).pc + 2 })) ::
                    s.trace := by rw [hres]
                have hdp : res.dispatches = some i :: s.dispatches := by rw [hres]
                have hsnap_pids : pidsOf (pcbs.set i
                    { (pcbs.getD i dfltPCB) with
                      state := "Running", pc := (pcbs.getD i dfltPCB).pc + 2 }) =
                    pidsOf pcbs := pidsOf_set pcbs i _ hlen rfl
                constructor
                · refine Or.inr ⟨i, _, s.trace, s.dispatches, htr, hdp, hlen, ?_⟩
                  exact linkTo_set pcbs i _ hInv.2.1 hlen rfl
                    (by show (pcbs.getD i dfltPCB).pc ≤ (pcbs.getD i dfltPCB).pc + 2
                        omega)
                · intro k b1 b2 i1 i2 h1 h2 h3 h4
                  rw [htr] at h1 h2
                  rw [hdp] at h3 h4
                  cases k with
                  | zero =>
                      rw [List.get?_cons_zero] at h1 h3
                      rw [List.get?_cons_succ] at h2
                      rw [List.get?_cons_succ] at h4
                      have hb1 := Option.some.inj h1
                      have hi1 : i = i1 := Option.some.inj (Option.some.inj h3)
                      rcases ihFirst with hemp | ⟨j, b', trest, drest, hst, hsd, hjlen, hlink⟩
                      · rw [hemp] at h2; simp at h2
                      · rw [hst] at h2
                        rw [hsd] at h4
                        rw [List.get?_cons_zero] at h2 h4
                        have hb2 := Option.some.inj h2
                        have hi2 : j = i2 := Option.some.inj (Option.some.inj h4)
                        rw [← hb1, ← hb2, ← hi1, ← hi2]
                        simp only
                        have hrev : RevertTo (pidAt pcbs i)
                            (sortByPid (pcbs.set i
                              { (pcbs.getD i dfltPCB) with
                                state := "Running",
                                pc := (pcbs.getD i dfltPCB).pc + 2 }))
                            (pcbs.set i
                              { (pcbs.getD i dfltPCB) with
                                state := "Ready",
                                pc := (pcbs.getD i dfltPCB).pc + 2 }) := by
                          have hset2 := List.set_set
                            { (pcbs.getD i dfltPCB) with
                              state := "Running", pc := (pcbs.getD i dfltPCB).pc + 2 }
                            { (pcbs.getD i dfltPCB) with
                              state := "Ready", pc := (pcbs.getD i dfltPCB).pc + 2 }
                            pcbs i
                          rw [← hset2]
                          have hpa := pidAt_congr hsnap_pids i
                          rw [← hpa]
                          refine revertTo_set _ i _ ?_ ?_ ?_ ?_
                          · rw [hsnap_pids]; exact hInv.2.1
                          · rw [List.length_set]; exact hlen
                          · rw [hpa]; rfl
                          · rw [getD_set_self pcbs i _ dfltPCB hlen]
                        have hlink2 : LinkTo (pidAt pcbs j)
                            (pcbs.set i
                              { (pcbs.getD i dfltPCB) with
                                state := "Ready",
                                pc := (pcbs.getD i dfltPCB).pc + 2 }) b'.2 := by
                          rw [← pidAt_congr hpids2 j]
                          exact hlink
                        refine adj_compose _ _ _ _ _ hrev hlink2 ?_
                        intro q hq
                        have hq2 : q ∈ pidsOf (pcbs.set i
                            { (pcbs.getD i dfltPCB) with
                              state := "Running",
                              pc := (pcbs.getD i dfltPCB).pc + 2 }) :=
                          ((sortByPid_perm _).map (fun p => p.pid)).mem_iff.mp hq
                        rw [hsnap_pids] at hq2
                        rw [hpids2]
                        exact hq2
                  | succ k =>
                      rw [List.get?_cons_succ] at h1 h2 h3 h4
                      have := ihAdj k b1 b2 i1 i2 h1 h2 h3 h4
                      rw [pidAt_congr hpids2 i1, pidAt_congr hpids2 i2] at this
                      exact this
              · -- terminating dispatch
                rw [heq] at hs hres
                simp only at hs hres
                obtain ⟨hInv2, -, hpids2, hlen2, -⟩ :=
                  schedInv_term pcbs i rest _ hInv rfl
                obtain ⟨ihFirst, ihAdj⟩ := ih _ _ (t + 1) s hs hInv2
                have htr : res.trace = (t + 1, sortByPid (pcbs.set i
                    { (pcbs.getD i dfltPCB) with
                      state := "Terminated", pc := (pcbs.getD i dfltPCB).total_work })) ::
                    s.trace := by rw [hres]
                have hdp : res.dispatches = some i :: s.dispatches := by rw [hres]
                constructor
                · refine Or.inr ⟨i, _, s.trace, s.dispatches, htr, hdp, hlen, ?_⟩
                  exact linkTo_set pcbs i _ hInv.2.1 hlen rfl
                    (by show (pcbs.getD i dfltPCB).pc ≤ (pcbs.getD i dfltPCB).total_work
                        omega)
                · intro k b1 b2 i1 i2 h1 h2 h3 h4
                  rw [htr] at h1 h2
                  rw [hdp] at h3 h4
                  cases k with
                  | zero =>
                      rw [List.get?_cons_zero] at h1 h3
                      rw [List.get?_cons_succ] at h2
                      rw [List.get?_cons_succ] at h4
                      have hb1 := Option.some.inj h1
                      have hi1 : i = i1 := Option.some.inj (Option.some.inj h3)
                      rcases ihFirst with hemp | ⟨j, b', trest, drest, hst, hsd, hjlen, hlink⟩
                      · rw [hemp] at h2; simp at h2
                      · rw [hst] at h2
                        rw [hsd] at h4
                        rw [List.get?_cons_zero] at h2 h4
                        have hb2 := Option.some.inj h2
                        have hi2 : j = i2 := Option.some.inj (Option.some.inj h4)
                        rw [← hb1, ← hb2, ← hi1, ← hi2]
                        simp only
                        have hrev : RevertTo (pidAt pcbs i)
                            (sortByPid (pcbs.set i
                              { (pcbs.getD i dfltPCB) with
                                state := "Terminated",
                                pc := (pcbs.getD i dfltPCB).total_work }))
                            (pcbs.set i
                              { (pcbs.getD i dfltPCB) with
                                state := "Terminated",
                                pc := (pcbs.getD i dfltPCB).total_work }) :=
                          revertTo_refl _ (by rw [hpids2]; exact hInv.2.1) _
                        have hlink2 : LinkTo (pidAt pcbs j)
                            (pcbs.set i
                              { (pcbs.getD i dfltPCB) with
                                state := "Terminated",
                                pc := (pcbs.getD i dfltPCB).total_work }) b'.2 := by
                          rw [← pidAt_congr hpids2 j]
                          exact hlink
                        refine adj_compose _ _ _ _ _ hrev hlink2 ?_
                        intro q hq
                        have hq2 : q ∈ pidsOf (pcbs.set i
                            { (pcbs.getD i dfltPCB) with
                              state := "Terminated",
                              pc := (pcbs.getD i dfltPCB).total_work }) :=
                          ((sortByPid_perm _).map (fun p => p.pid)).mem_iff.mp hq
                        exact hq2
                  | succ k =>
                      rw [List.get?_cons_succ] at h1 h2 h3 h4
                      have := ihAdj k b1 b2 i1 i2 h1 h2 h3 h4
                      rw [pidAt_congr hpids2 i1, pidAt_congr hpids2 i2] at this
                      exact this

/-! ### Ingestion -/

theorem schedInv_initial (pcbs : List PCB)
    (hall : ∀ p ∈ pcbs, p.state = "Ready" ∧ p.pc = 0 ∧ 0 < p.total_work)
    (hnodup : (pidsOf pcbs).Nodup) :
    SchedInv pcbs (List.range pcbs.length) := by
  refine ⟨?_, hnodup, List.nodup_range _, ?_⟩
  · intro p hp
    obtain ⟨h1, h2, h3⟩ := hall p hp
    refine ⟨h3, by omega, by omega, ⟨?_, ?_⟩, Or.inl h1⟩
    · intro hs
      rw [h1] at hs
      exact absurd hs ready_ne_term
    · intro hpc
      exact absurd hpc (by omega)
  · intro j
    rw [List.mem_range]
    constructor
    · intro hj
      refine ⟨hj, ?_⟩
      have := hall _ (getD_mem pcbs j dfltPCB hj)
      rw [this.1]
      exact ready_ne_term
    · exact fun h => h.1

theorem takePairs_length : ∀ (n : Nat) (tokens : List (Option Int))
    (pairs : List (Int × Int)) (rest : List (Option Int)),
    takePairs n tokens = some (pairs, rest) → pairs.length = n := by
  intro n
  induction n with
  | zero =>
      intro tokens pairs rest h
      simp [takePairs] at h
      simp [h.1]
  | succ n ih =>
      intro tokens pairs rest h
      match tokens with
      | [] => simp [takePairs] at h
      | none :: ts => simp [takePairs] at h
      | [some pid] => simp [takePairs] at h
      | some pid :: none :: ts => simp [takePairs] at h
      | some pid :: some work :: ts =>
          rw [takePairs] at h
          cases htn : takePairs n ts with
          | none => rw [htn] at h; exact absurd h (by simp)
          | some pr =>
              rw [htn] at h
              obtain ⟨hp, -⟩ := Prod.mk.inj (Option.some.inj h)
              rw [← hp]
              simp [ih ts pr.1 pr.2 (by rw [htn])]

theorem ingestLoop_ok : ∀ (n : Nat) (tokens : List (Option Int))
    (pairs : List (Int × Int)) (rest : List (Option Int))
    (pids : List Int) (acc : List PCB),
    takePairs n tokens = some (pairs, rest) →
    (∀ pw ∈ pairs, 0 < pw.2) →
    (pids ++ pairs.map (fun pw => pw.1)).Nodup →
    ingestLoop n tokens pids acc =
      .ok (acc ++ pairs.map (fun pw => mkPCB pw.1 pw.2)) := by
  intro n
  induction n with
  | zero =>
      intro tokens pairs rest pids acc htp hw hnd
      simp [takePairs] at htp
      simp [htp.1, ingestLoop]
  | succ n ih =>
      intro tokens pairs rest pids acc htp hw hnd
      match tokens with
      | [] => simp [takePairs] at htp
      | none :: ts => simp [takePairs] at htp
      | [some pid] => simp [takePairs] at htp
      | some pid :: none :: ts => simp [takePairs] at htp
      | some pid :: some work :: ts =>
          rw [takePairs] at htp
          cases htn : takePairs n ts with
          | none => rw [htn] at htp; exact absurd htp (by simp)
          | some pr =>
              rw [htn] at htp
              obtain ⟨hp, hr⟩ := Prod.mk.inj (Option.some.inj htp)
              rw [← hp] at hw hnd ⊢
              have hwork : 0 < work := hw (pid, work) (List.mem_cons_self _ _)
              have hnd' : (pids ++ pid :: pr.1.map (fun pw => pw.1)).Nodup := by
                simpa using hnd
              have hpnotin : pid ∉ pids := by
                intro hin
                exact (List.nodup_append.mp hnd').2.2 hin (List.mem_cons_self _ _)
              rw [ingestLoop, if_neg (by omega), if_neg hpnotin]
              have hnd2 : ((pids ++ [pid]) ++ pr.1.map (fun pw => pw.1)).Nodup := by
                rw [← List.append_cons]
                exact hnd'
              have := ih ts pr.1 pr.2 (pids ++ [pid]) (acc ++ [mkPCB pid work])
                (by rw [htn]) (fun pw hpw => hw pw (List.mem_cons_of_mem _ hpw)) hnd2
              rw [this]
              simp

theorem ingestLoop_err_none : ∀ (n : Nat) (tokens : List (Option Int))
    (pids : List Int) (acc : List PCB),
    takePairs n tokens = none →
    ∃ e, ingestLoop n tokens pids acc = .error e := by
  intro n
  induction n with
  | zero => intro tokens pids acc h; simp [takePairs] at h
  | succ n ih =>
      intro tokens pids acc h
      match tokens with
      | [] => exact ⟨_, rfl⟩
      | none :: ts => exact ⟨_, rfl⟩
      | [some pid] => exact ⟨_, rfl⟩
      | some pid :: none :: ts => exact ⟨_, rfl⟩
      | some pid :: some work :: ts =>
          rw [takePairs] at h
          cases htn : takePairs n ts with
          | some pr => rw [htn] at h; exact absurd h (by simp)
          | none =>
              rw [ingestLoop]
              by_cases hw : work ≤ 0
              · exact ⟨_, by rw [if_pos hw]⟩
              · by_cases hp : pid ∈ pids
                · exact ⟨_, by rw [if_neg hw, if_pos hp]⟩
                · obtain ⟨e, he⟩ := ih ts (pids ++ [pid]) (acc ++ [mkPCB pid work]) htn
                  exact ⟨e, by rw [if_neg hw, if_neg hp]; exact he⟩

theorem ingestLoop_err_work : ∀ (n : Nat) (tokens : List (Option Int))
    (pairs : List (Int × Int)) (rest : List (Option Int))
    (pids : List Int) (acc : List PCB),
    takePairs n tokens = some (pairs, rest) →
    (∃ pw ∈ pairs, pw.2 ≤ 0) →
    ∃ e, ingestLoop n tokens pids acc = .error e := by
  intro n
  induction n with
  | zero =>
      intro tokens pairs rest pids acc htp hbad
      simp [takePairs] at htp
      obtain ⟨pw, hpw, -⟩ := hbad
      rw [htp.1] at hpw
      exact absurd hpw (List.not_mem_nil pw)
  | succ n ih =>
      intro tokens pairs rest pids acc htp hbad
      match tokens with
      | [] => simp [takePairs] at htp
      | none :: ts => simp [takePairs] at htp
      | [some pid] => simp [takePairs] at htp
      | some pid :: none :: ts => simp [takePairs] at htp
      | some pid :: some work :: ts =>
          rw [takePairs] at htp
          cases htn : takePairs n ts with
          | none => rw [htn] at htp; exact absurd htp (by simp)
          | some pr =>
              rw [htn] at htp
              obtain ⟨hp, hr⟩ := Prod.mk.inj (Option.some.inj htp)
              rw [ingestLoop]
              by_cases hw : work ≤ 0
              · exact ⟨_, by rw [if_pos hw]⟩
              · by_cases hpidin : pid ∈ pids
                · exact ⟨_, by rw [if_neg hw, if_pos hpidin]⟩
                · obtain ⟨pw, hpw, hpwle⟩ := hbad
                  rw [← hp] at hpw
                  rcases List.mem_cons.mp hpw with rfl | hpw2
                  · exact absurd hpwle (by omega)
                  · obtain ⟨e, he⟩ := ih ts pr.1 pr.2 (pids ++ [pid])
                      (acc ++ [mkPCB pid work]) (by rw [htn]) ⟨pw, hpw2, hpwle⟩
                    exact ⟨e, by rw [if_neg hw, if_neg hpidin]; exact he⟩

theorem ingestLoop_err_dup : ∀ (n : Nat) (tokens : List (Option Int))
    (pairs : List (Int × Int)) (rest : List (Option Int))
    (pids : List Int) (acc : List PCB),
    takePairs n tokens = some (pairs, rest) →
    pids.Nodup →
    ¬ (pids ++ pairs.map (fun pw => pw.1)).Nodup →
    ∃ e, ingestLoop n tokens pids acc = .error e := by
  intro n
  induction n with
  | zero =>
      intro tokens pairs rest pids acc htp hpids hbad
      simp [takePairs] at htp
      rw [htp.1] at hbad
      simp at hbad
      exact absurd hpids hbad
  | succ n ih =>
      intro tokens pairs rest pids acc htp hpids hbad
      match tokens with
      | [] => simp [takePairs] at htp
      | none :: ts => simp [takePairs] at htp
      | [some pid] => simp [takePairs] at htp
      | some pid :: none :: ts => simp [takePairs] at htp
      | some pid :: some work :: ts =>
          rw [takePairs] at htp
          cases htn : takePairs n ts with
          | none => rw [htn] at htp; exact absurd htp (by simp)
          | some pr =>
              rw [htn] at htp
              obtain ⟨hp, hr⟩ := Prod.mk.inj (Option.some.inj htp)
              rw [ingestLoop]
              by_cases hw : work ≤ 0
              · exact ⟨_, by rw [if_pos hw]⟩
              · by_cases hpidin : pid ∈ pids
                · exact ⟨_, by rw [if_neg hw, if_pos hpidin]⟩
                · have hpids2 : (pids ++ [pid]).Nodup := by
                    rw [List.nodup_append]
                    refine ⟨hpids, List.nodup_singleton pid, ?_⟩
                    intro a ha hb
                    rw [List.mem_singleton] at hb
                    exact hpidin (hb ▸ ha)
                  have hbad2 : ¬ ((pids ++ [pid]) ++ pr.1.map (fun pw => pw.1)).Nodup := by
                    rw [← List.append_cons]
                    intro hcon
                    apply hbad
                    rw [← hp]
                    simpa using hcon
                  obtain ⟨e, he⟩ := ih ts pr.1 pr.2 (pids ++ [pid])
                    (acc ++ [mkPCB pid work]) (by rw [htn]) hpids2 hbad2
                  exact ⟨e, by rw [if_neg hw, if_neg hpidin]; exact he⟩

theorem ingestLoop_ok_inv : ∀ (n : Nat) (tokens : List (Option Int))
    (pids : List Int) (acc : List PCB) (pcbs : List PCB),
    ingestLoop n tokens pids acc = .ok pcbs →
    pids.Nodup →
    ∃ pairs rest, takePairs n tokens = some (pairs, rest) ∧
      (∀ pw ∈ pairs, 0 < pw.2) ∧
      (pids ++ pairs.map (fun pw => pw.1)).Nodup ∧
      pcbs = acc ++ pairs.map (fun pw => mkPCB pw.1 pw.2) := by
  intro n
  induction n with
  | zero =>
      intro tokens pids acc pcbs h hpids
      refine ⟨[], tokens, rfl, by simp, by simpa using hpids, ?_⟩
      have : acc = pcbs := Except.ok.inj h
      rw [← this]
      simp
  | succ n ih =>
      intro tokens pids acc pcbs h hpids
      match tokens with
      | [] => exact absurd h (by simp [ingestLoop])
      | none :: ts => exact absurd h (by simp [ingestLoop])
      | [some pid] => exact absurd h (by simp [ingestLoop])
      | some pid :: none :: ts => exact absurd h (by simp [ingestLoop])
      | some pid :: some work :: ts =>
          rw [ingestLoop] at h
          by_cases hw : work ≤ 0
          · rw [if_pos hw] at h
            exact absurd h (by simp)
          · rw [if_neg hw] at h
            by_cases hpidin : pid ∈ pids
            · rw [if_pos hpidin] at h
              exact absurd h (by simp)
            · rw [if_neg hpidin] at h
              have hpids2 : (pids ++ [pid]).Nodup := by
                rw [List.nodup_append]
                refine ⟨hpids, List.nodup_singleton pid, ?_⟩
                intro a ha hb
                rw [List.mem_singleton] at hb
                exact hpidin (hb ▸ ha)
              obtain ⟨pairs, rest, htp, hwk, hnd, hpc⟩ := ih ts _ _ _ h hpids2
              refine ⟨(pid, work) :: pairs, rest, ?_, ?_, ?_, ?_⟩
              · rw [takePairs, htp]
              · intro pw hpw
                rcases List.mem_cons.mp hpw with rfl | hpw2
                · omega
                · exact hwk pw hpw2
              · simp only [List.map_cons]
                rw [List.append_cons]
                exact hnd
              · rw [hpc]
                simp

theorem pcbsOfPairs_valid (pairs : List (Int × Int))
    (hw : ∀ pw ∈ pairs, 0 < pw.2) :
    ∀ p ∈ pcbsOfPairs pairs, p.state = "Ready" ∧ p.pc = 0 ∧ 0 < p.total_work := by
  intro p hp
  obtain ⟨pw, hpw, rfl⟩ := List.mem_map.mp hp
  exact ⟨rfl, rfl, hw pw hpw⟩

theorem pidsOf_pcbsOfPairs (pairs : List (Int × Int)) :
    pidsOf (pcbsOfPairs pairs) = pairs.map (fun pw => pw.1) := by
  unfold pidsOf pcbsOfPairs
  rw [List.map_map]
  rfl

theorem mainSim_ok_of_valid (tokens : List (Option Int))
    (h : ValidTokens tokens) : ∃ res, mainSim tokens = .ok res := by
  obtain ⟨n, rest, pairs, rest2, rfl, hn, htp, hw, hnd⟩ := h
  have hing : ingestLoop n.toNat rest [] [] = .ok (pcbsOfPairs pairs) := by
    have := ingestLoop_ok n.toNat rest pairs rest2 [] [] htp hw (by simpa using hnd)
    simpa [pcbsOfPairs] using this
  have hInv := schedInv_initial (pcbsOfPairs pairs) (pcbsOfPairs_valid pairs hw)
    (by rw [pidsOf_pcbsOfPairs]; exact hnd)
  obtain ⟨res, hres⟩ := simLoop_total (totalWork (pcbsOfPairs pairs)) _ _ 0 hInv le_rfl
  have hker : kernelSimulator (pcbsOfPairs pairs) 2
      (totalWork (pcbsOfPairs pairs)) = some res := hres
  have hn0 : ¬ (n ≤ 0) := by omega
  refine ⟨res, ?_⟩
  simp only [mainSim, hn0, if_false, hing, hker]

theorem mainSim_ok_iff (tokens : List (Option Int)) :
    (∃ res, mainSim tokens = .ok res) ↔ ValidTokens tokens := by
  constructor
  · rintro ⟨res, hres⟩
    cases tokens with
    | nil => exact absurd hres (by simp [mainSim])
    | cons a rest =>
        cases a with
        | none => exact absurd hres (by simp [mainSim])
        | some n =>
            by_cases hn : n ≤ 0
            · rw [mainSim, if_pos hn] at hres
              exact absurd hres (by simp)
            · rw [mainSim, if_neg hn] at hres
              cases hing : ingestLoop n.toNat rest [] [] with
              | error e => rw [hing] at hres; exact absurd hres (by simp)
              | ok pcbs =>
                  rw [hing] at hres
                  have hres2 : (match kernelSimulator pcbs 2 (totalWork pcbs) with
                    | some res => Except.ok res
                    | none => Except.error "Fuel exhausted") = Except.ok res := hres
                  cases hker : kernelSimulator pcbs 2 (totalWork pcbs) with
                  | none => rw [hker] at hres2; exact absurd hres2 (by simp)
                  | some r =>
                      obtain ⟨pairs, rest2, htp, hw, hnd, -⟩ :=
                        ingestLoop_ok_inv n.toNat rest [] [] pcbs hing List.nodup_nil
                      exact ⟨n, rest, pairs, rest2, rfl, by omega, htp, hw,
                        by simpa using hnd⟩
  · exact mainSim_ok_of_valid tokens

theorem mainSim_error_iff (tokens : List (Option Int)) :
    (∃ e, mainSim tokens = .error e) ↔ ¬ ValidTokens tokens := by
  cases hm : mainSim tokens with
  | error e =>
      constructor
      · intro _
        intro hv
        obtain ⟨res, hres⟩ := (mainSim_ok_iff tokens).mpr hv
        rw [hm] at hres
        exact Except.noConfusion hres
      · intro _
        exact ⟨e, rfl⟩
  | ok r =>
      constructor
      · rintro ⟨e, he⟩
        exact Except.noConfusion he
      · intro hv
        exact absurd ((mainSim_ok_iff tokens).mp ⟨r, hm⟩) hv

/-! ### Pid-independence of dispatching -/

theorem setPidsAux_length (g : Nat → Int) : ∀ (k : Nat) (s : List PCB),
    (setPidsAux g k s).length = s.length := by
  intro k s
  induction s generalizing k with
  | nil => rfl
  | cons p ps ih => simp [setPidsAux, ih]

theorem set_oob {α : Type} : ∀ (l : List α) (i : Nat) (v : α),
    l.length ≤ i → l.set i v = l := by
  intro l
  induction l with
  | nil => intro i v h; rfl
  | cons x xs ih =>
      intro i v h
      cases i with
      | zero => simp at h
      | succ m =>
          simp only [List.set]
          rw [ih m v (by simpa using h)]

theorem allTerm_setPidsAux (g : Nat → Int) : ∀ (k : Nat) (s : List PCB),
    allProcessesTerminated (setPidsAux g k s) = allProcessesTerminated s := by
  intro k s
  induction s generalizing k with
  | nil => rfl
  | cons p ps ih =>
      simp only [setPidsAux, allProcessesTerminated, List.all_cons]
      rw [← allProcessesTerminated, ← allProcessesTerminated, ih (k + 1)]

theorem getD_setPidsAux (g : Nat → Int) : ∀ (k : Nat) (s : List PCB) (i : Nat),
    i < s.length →
    (setPidsAux g k s).getD i dfltPCB =
      { (s.getD i dfltPCB) with pid := g (k + i) } := by
  intro k s
  induction s generalizing k with
  | nil => intro i h; simp at h
  | cons p ps ih =>
      intro i h
      cases i with
      | zero => simp [setPidsAux, List.getD]
      | succ m =>
          have hm : m < ps.length := by simpa using h
          have h1 : (setPidsAux g k (p :: ps)).getD (m + 1) dfltPCB =
              (setPidsAux g (k + 1) ps).getD m dfltPCB := by
            simp [setPidsAux, List.getD_eq_getElem?_getD]
          have h2 : ((p :: ps).getD (m + 1) dfltPCB) = ps.getD m dfltPCB := by
            simp [List.getD_eq_getElem?_getD]
          rw [h1, h2, ih (k + 1) m hm]
          have : k + 1 + m = k + (m + 1) := by omega
          rw [this]

theorem getD_oob {α : Type} (l : List α) (i : Nat) (d : α)
    (h : l.length ≤ i) : l.getD i d = d := by
  rw [List.getD_eq_getElem?_getD, List.getElem?_eq_none h, Option.getD_none]

theorem set_setPidsAux (g : Nat → Int) : ∀ (k : Nat) (s : List PCB) (i : Nat) (v : PCB),
    setPidsAux g k (s.set i v) =
      (setPidsAux g k s).set i { v with pid := g (k + i) } := by
  intro k s
  induction s generalizing k with
  | nil => intro i v; rfl
  | cons p ps ih =>
      intro i v
      cases i with
      | zero => simp [setPidsAux, List.set]
      | succ m =>
          simp only [List.set, setPidsAux]
          rw [ih (k + 1) m v]
          have : k + 1 + m = k + (m + 1) := by omega
          rw [this]

/-- Unconditional characterization of a dispatching tick whose process
completes within the slice (pc + workDone reaches total_work). -/
theorem tickStep_cons_term_eq (q : Int) (s : List PCB) (i : Nat)
    (rest : List Nat) (t : Nat)
    (hcond : (s.getD i dfltPCB).total_work ≤ (s.getD i dfltPCB).pc +
      min q ((s.getD i dfltPCB).total_work - (s.getD i dfltPCB).pc)) :
    tickStep q s (i :: rest) t =
      { pcbs := s.set i { (s.getD i dfltPCB) with
          state := "Terminated",
          pc := (s.getD i dfltPCB).pc +
            min q ((s.getD i dfltPCB).total_work - (s.getD i dfltPCB).pc) },
        readyQueue := rest,
        block := (t, sortByPid (s.set i { (s.getD i dfltPCB) with
          state := "Terminated",
          pc := (s.getD i dfltPCB).pc +
            min q ((s.getD i dfltPCB).total_work - (s.getD i dfltPCB).pc) })),
        dispatched := some i } := by
  set p0 := s.getD i dfltPCB with hp0
  have hnlt : ¬ (p0.pc + min q (p0.total_work - p0.pc) < p0.total_work) :=
    not_lt.mpr hcond
  simp only [tickStep, printProcessStates, ← hp0]
  simp [hcond, hnlt]

/-- Unconditional characterization of a dispatching tick whose process does
not complete within the slice. -/
theorem tickStep_cons_cont_eq (q : Int) (s : List PCB) (i : Nat)
    (rest : List Nat) (t : Nat)
    (hcond : (s.getD i dfltPCB).pc +
      min q ((s.getD i dfltPCB).total_work - (s.getD i dfltPCB).pc) <
      (s.getD i dfltPCB).total_work) :
    tickStep q s (i :: rest) t =
      { pcbs := s.set i { (s.getD i dfltPCB) with
          state := "Ready",
          pc := (s.getD i dfltPCB).pc +
            min q ((s.getD i dfltPCB).total_work - (s.getD i dfltPCB).pc) },
        readyQueue := rest ++ [i],
        block := (t, sortByPid (s.set i { (s.getD i dfltPCB) with
          state := "Running",
          pc := (s.getD i dfltPCB).pc +
            min q ((s.getD i dfltPCB).total_work - (s.getD i dfltPCB).pc) })),
        dispatched := some i } := by
  set p0 := s.getD i dfltPCB with hp0
  have hnle : ¬ (p0.total_work ≤ p0.pc + min q (p0.total_work - p0.pc)) :=
    not_le.mpr hcond
  simp only [tickStep, printProcessStates, ← hp0]
  simp [hcond, hnle, List.set_set]

theorem tickStep_dispatched_cons (q : Int) (s : List PCB) (i : Nat)
    (rest : List Nat) (t : Nat) :
    (tickStep q s (i :: rest) t).dispatched = some i := by
  simp only [tickStep]
  split <;> split <;> rfl

/-- Renaming pids changes neither the control flow of a tick nor which
index is dispatched; the resulting records are the renamed originals. -/
theorem tickStep_setPids (q : Int) (s : List PCB) (i : Nat) (rest : List Nat)
    (t : Nat) (g : Nat → Int) :
    (tickStep q (setPids g s) (i :: rest) t).dispatched = some i ∧
    (tickStep q (setPids g s) (i :: rest) t).readyQueue =
      (tickStep q s (i :: rest) t).readyQueue ∧
    (tickStep q (setPids g s) (i :: rest) t).pcbs =
      setPids g (tickStep q s (i :: rest) t).pcbs := by
  refine ⟨tickStep_dispatched_cons _ _ _ _ _, ?_⟩
  by_cases hi : i < s.length
  · have hgd : (setPids g s).getD i dfltPCB =
        { (s.getD i dfltPCB) with pid := g i } := by
      have := getD_setPidsAux g 0 s i hi
      simpa [setPids] using this
    by_cases hcond : (s.getD i dfltPCB).total_work ≤ (s.getD i dfltPCB).pc +
        min q ((s.getD i dfltPCB).total_work - (s.getD i dfltPCB).pc)
    · have hcond2 : ((setPids g s).getD i dfltPCB).total_work ≤
          ((setPids g s).getD i dfltPCB).pc +
          min q (((setPids g s).getD i dfltPCB).total_work -
            ((setPids g s).getD i dfltPCB).pc) := by
        rw [hgd]
        exact hcond
      rw [tickStep_cons_term_eq q (setPids g s) i rest t hcond2,
        tickStep_cons_term_eq q s i rest t hcond]
      refine ⟨rfl, ?_⟩
      rw [hgd]
      simp only [setPids]
      rw [set_setPidsAux g 0 s i]
      simp
    · have hlt := lt_of_not_le hcond
      have hlt2 : ((setPids g s).getD i dfltPCB).pc +
          min q (((setPids g s).getD i dfltPCB).total_work -
            ((setPids g s).getD i dfltPCB).pc) <
          ((setPids g s).getD i dfltPCB).total_work := by
        rw [hgd]
        exact hlt
      rw [tickStep_cons_cont_eq q (setPids g s) i rest t hlt2,
        tickStep_cons_cont_eq q s i rest t hlt]
      refine ⟨rfl, ?_⟩
      rw [hgd]
      simp only [setPids]
      rw [set_setPidsAux g 0 s i]
      simp
  · have hoob : s.length ≤ i := le_of_not_lt hi
    have hoob2 : (setPids g s).length ≤ i := by
      rw [setPids, setPidsAux_length]
      exact hoob
    have hgd1 : (setPids g s).getD i dfltPCB = dfltPCB := getD_oob _ i _ hoob2
    have hgd2 : s.getD i dfltPCB = dfltPCB := getD_oob _ i _ hoob
    by_cases hc : dfltPCB.total_work ≤ dfltPCB.pc +
        min q (dfltPCB.total_work - dfltPCB.pc)
    · rw [tickStep_cons_term_eq q (setPids g s) i rest t (by rw [hgd1]; exact hc),
        tickStep_cons_term_eq q s i rest t (by rw [hgd2]; exact hc)]
      refine ⟨rfl, ?_⟩
      simp only
      rw [set_oob _ _ _ hoob2, set_oob _ _ _ hoob]
    · have hc2 := lt_of_not_le hc
      rw [tickStep_cons_cont_eq q (setPids g s) i rest t (by rw [hgd1]; exact hc2),
        tickStep_cons_cont_eq q s i rest t (by rw [hgd2]; exact hc2)]
      refine ⟨rfl, ?_⟩
      simp only
      rw [set_oob _ _ _ hoob2, set_oob _ _ _ hoob]

theorem simLoop_succ_eq (q : Int) (fuel : Nat) (pcbs : List PCB)
    (queue : List Nat) (t : Nat)
    (hna : allProcessesTerminated pcbs = false) :
    simLoop q (fuel + 1) pcbs queue t =
      (simLoop q fuel (tickStep q pcbs queue (t + 1)).pcbs
        (tickStep q pcbs queue (t + 1)).readyQueue (t + 1)).map
        (fun s => { pcbs := s.pcbs,
                    trace := (tickStep q pcbs queue (t + 1)).block :: s.trace,
                    dispatches := (tickStep q pcbs queue (t + 1)).dispatched ::
                      s.dispatches }) := by
  simp only [simLoop, hna]
  cases hsl : simLoop q fuel (tickStep q pcbs queue (t + 1)).pcbs
      (tickStep q pcbs queue (t + 1)).readyQueue (t + 1) with
  | none => simp
  | some s' => simp

theorem map_dispatch_cons (o1 o2 : Option SimResult) (b1 b2 : Nat × List PCB)
    (d : Option Nat)
    (h : o1.map SimResult.dispatches = o2.map SimResult.dispatches) :
    ((o1.map (fun s =>
        ({ pcbs := s.pcbs, trace := b1 :: s.trace,
           dispatches := d :: s.dispatches } : SimResult))).map
      SimResult.dispatches) =
    ((o2.map (fun s =>
        ({ pcbs := s.pcbs, trace := b2 :: s.trace,
           dispatches := d :: s.dispatches } : SimResult))).map
      SimResult.dispatches) := by
  cases o1 with
  | none =>
      cases o2 with
      | none => rfl
      | some s2 => simp at h
  | some s1 =>
      cases o2 with
      | none => simp at h
      | some s2 =>
          simp at h
          simp [h]

/-- The full dispatch sequence of the scheduling loop is unchanged when
every pid is renamed: dispatching never consults pid values. -/
theorem simLoop_setPids (g : Nat → Int) (q : Int) : ∀ (fuel : Nat)
    (s : List PCB) (queue : List Nat) (t : Nat),
    (simLoop q fuel (setPids g s) queue t).map SimResult.dispatches =
      (simLoop q fuel s queue t).map SimResult.dispatches := by
  intro fuel
  induction fuel with
  | zero =>
      intro s queue t
      have hterm2 : allProcessesTerminated (setPids g s) =
          allProcessesTerminated s := by
        rw [setPids, allTerm_setPidsAux]
      cases hterm : allProcessesTerminated s with
      | true => simp [simLoop, hterm, hterm2]
      | false => simp [simLoop, hterm, hterm2]
  | succ fuel ih =>
      intro s queue t
      have hterm2 : allProcessesTerminated (setPids g s) =
          allProcessesTerminated s := by
        rw [setPids, allTerm_setPidsAux]
      cases hterm : allProcessesTerminated s with
      | true =>
          rw [simLoop_all_term q _ _ _ _ hterm,
            simLoop_all_term q _ _ _ _ (by rw [hterm2, hterm])]
          rfl
      | false =>
          rw [simLoop_succ_eq q fuel (setPids g s) queue t (by rw [hterm2, hterm]),
            simLoop_succ_eq q fuel s queue t hterm]
          cases queue with
          | nil =>
              have e1 : tickStep q (setPids g s) [] (t + 1) =
                  { pcbs := setPids g s, readyQueue := [],
                    block := printProcessStates (setPids g s) (t + 1),
                    dispatched := none } := rfl
              have e2 : tickStep q s [] (t + 1) =
                  { pcbs := s, readyQueue := [],
                    block := printProcessStates s (t + 1),
                    dispatched := none } := rfl
              rw [e1, e2]
              simp only
              exact map_dispatch_cons _ _ _ _ none (ih s [] (t + 1))
          | cons i rst =>
              obtain ⟨hd1, hq1, hp1⟩ := tickStep_setPids q s i rst (t + 1) g
              have hd0 := tickStep_dispatched_cons q s i rst (t + 1)
              rw [hd1, hq1, hp1, hd0]
              exact map_dispatch_cons _ _ _ _ (some i)
                (ih (tickStep q s (i :: rst) (t + 1)).pcbs
                  (tickStep q s (i :: rst) (t + 1)).readyQueue (t + 1))

/-! ### Shared concrete run: Scenario A of the specification -/

theorem scenarioARun_eq : kernelSimulator [mkPCB 1 3, mkPCB 2 2] 2
    (totalWork [mkPCB 1 3, mkPCB 2 2]) = some scenarioARun := by decide

/-- Every record of the halted run is still wellformed. -/
theorem simLoop_good : ∀ (fuel : Nat) (pcbs : List PCB) (queue : List Nat)
    (t : Nat) (res : SimResult),
    simLoop 2 fuel pcbs queue t = some res → SchedInv pcbs queue →
    ∀ p ∈ res.pcbs, goodPCB p := by
  intro fuel
  induction fuel with
  | zero =>
      intro pcbs queue t res h hInv
      cases hterm : allProcessesTerminated pcbs with
      | false => rw [simLoop, hterm] at h; exact absurd h (by simp)
      | true =>
          rw [simLoop_all_term 2 0 pcbs queue t hterm] at h
          rw [← Option.some.inj h]
          exact hInv.1
  | succ fuel ih =>
      intro pcbs queue t res h hInv
      cases hterm : allProcessesTerminated pcbs with
      | true =>
          rw [simLoop_all_term 2 (fuel + 1) pcbs queue t hterm] at h
          rw [← Option.some.inj h]
          exact hInv.1
      | false =>
          have hne := queue_ne_nil hInv hterm
          cases queue with
          | nil => exact absurd rfl hne
          | cons i rest =>
              obtain ⟨hlen, hpc0, hlt, hwpos⟩ := head_unfinished hInv
              obtain ⟨s, hs, hres⟩ :=
                simLoop_succ_some 2 fuel pcbs (i :: rest) t res hterm h
              rcases tickStep_spec pcbs i rest (t + 1) hlt with ⟨hc, heq⟩ | ⟨hc, heq⟩
              · rw [heq] at hs
                obtain ⟨hInv2, -, -, -, -⟩ := schedInv_cont pcbs i rest _ hInv hc rfl
                have := ih _ _ (t + 1) s hs hInv2
                rw [hres]
                exact this
              · rw [heq] at hs
                obtain ⟨hInv2, -, -, -, -⟩ := schedInv_term pcbs i rest _ hInv rfl
                have := ih _ _ (t + 1) s hs hInv2
                rw [hres]
                exact this

theorem takePairs_encode : ∀ (ps : List (Int × Int)),
    takePairs ps.length (encodePairs ps) = some (ps, []) := by
  intro ps
  induction ps with
  | nil => rfl
  | cons pw rest ih => simp [encodePairs, takePairs, ih]

theorem trace_at_dispatch (res : SimResult) (pcbs : List PCB)
    (hlen : res.dispatches.length = res.trace.length)
    (hmem : ∀ d ∈ res.dispatches, ∃ i, d = some i ∧ i < pcbs.length)
    (k : Nat) (b : Nat × List PCB) (htr : res.trace.get? k = some b) :
    ∃ i, res.dispatches.get? k = some (some i) ∧ i < pcbs.length := by
  have hk : k < res.trace.length := by
    by_contra hc
    rw [List.get?_eq_none.mpr (le_of_not_lt hc)] at htr
    exact Option.noConfusion htr
  have hk2 : k < res.dispatches.length := by rw [hlen]; exact hk
  cases hd : res.dispatches.get? k with
  | none =>
      rw [List.get?_eq_none] at hd
      omega
  | some d =>
      obtain ⟨i, rfl, hi⟩ := hmem d (List.get?_mem hd)
      exact ⟨i, rfl, hi⟩

/-! ### The specification claims -/

/-- C1: for every valid input (nonempty process list, all records freshly
Ready at pc 0 with positive total work, pids distinct), the scheduler loop
halts — within totalWork iterations of fuel — and on exit every record has
state "Terminated" and pc equal to its total_work. -/
theorem C1_termination (pcbs : List PCB) (h : ValidStart pcbs) :
    ∃ res, kernelSimulator pcbs 2 (totalWork pcbs) = some res ∧
      ∀ p ∈ res.pcbs, p.state = "Terminated" ∧ p.pc = p.total_work := by
  obtain ⟨hne, hall, hnodup⟩ := h
  have hInv := schedInv_initial pcbs hall hnodup
  obtain ⟨res, hres⟩ := simLoop_total (totalWork pcbs) pcbs _ 0 hInv le_rfl
  exact ⟨res, hres, simLoop_final _ _ _ _ _ hres hInv⟩

theorem C1_termination_witness :
    ∃ res, kernelSimulator [mkPCB 1 3, mkPCB 2 2] 2
        (totalWork [mkPCB 1 3, mkPCB 2 2]) = some res ∧
      ∀ p ∈ res.pcbs, p.state = "Terminated" ∧ p.pc = p.total_work :=
  C1_termination [mkPCB 1 3, mkPCB 2 2] (by decide)

/-- C2: over a whole valid run, the process at index j with total_work w is
dispatched exactly ceil(w/2) times, written (w.toNat + 1) / 2 in Nat
arithmetic (the quantum is fixed at 2); the dispatch ticks need not be
consecutive. -/
theorem C2_tick_count (pcbs : List PCB) (res : SimResult) (h : ValidStart pcbs)
    (hrun : kernelSimulator pcbs 2 (totalWork pcbs) = some res) :
    ∀ j, j < pcbs.length →
      res.dispatches.count (some j) =
        ((pcbs.getD j dfltPCB).total_work.toNat + 1) / 2 := by
  obtain ⟨hne, hall, hnodup⟩ := h
  have hInv := schedInv_initial pcbs hall hnodup
  intro j hj
  have hc := simLoop_counts (totalWork pcbs) pcbs _ 0 res hrun hInv j hj
  rw [hc]
  unfold remTicks
  have hpc := hall _ (getD_mem pcbs j dfltPCB hj)
  rw [hpc.2.1]
  simp

theorem C2_tick_count_witness :
    scenarioARun.dispatches.count (some 0) = 2 ∧
    scenarioARun.dispatches.count (some 1) = 1 :=
  ⟨(C2_tick_count [mkPCB 1 3, mkPCB 2 2] scenarioARun (by decide)
      scenarioARun_eq 0 (by decide)).trans (by decide),
   (C2_tick_count [mkPCB 1 3, mkPCB 2 2] scenarioARun (by decide)
      scenarioARun_eq 1 (by decide)).trans (by decide)⟩

/-- C8: on input N=2 with (pid 1, work 3) and (pid 2, work 2), the program
accepts the input (exit status 0, so the closing line is printed) and the
run takes exactly 3 ticks: tick 1 traces pid 1 Running at pc 2 (pid 2 still
Ready at 0; pid 1 is then requeued, visible as Ready in tick 2's block),
tick 2 traces pid 2 Terminated at pc 2, and tick 3 traces pid 1 Terminated
at pc 3. -/
theorem C8_scenarioA :
    mainSim [some 2, some 1, some 3, some 2, some 2] = .ok scenarioARun := by
  rfl

/-- C3: at every trace emission each record satisfies 0 ≤ pc ≤ total_work
and state = "Terminated" exactly when pc = total_work; between consecutive
trace blocks the pc of each pid never decreases; and the collection the
final completion check observes satisfies the same record invariant (the
intermediate completion checks observe exactly the states shown by the
invariant preservation lemmas schedInv_cont and schedInv_term). -/
theorem C3_invariants (pcbs : List PCB) (res : SimResult) (h : ValidStart pcbs)
    (hrun : kernelSimulator pcbs 2 (totalWork pcbs) = some res) :
    (∀ b ∈ res.trace, ∀ p ∈ b.2, 0 ≤ p.pc ∧ p.pc ≤ p.total_work ∧
      (p.state = "Terminated" ↔ p.pc = p.total_work)) ∧
    (∀ k b1 b2, res.trace.get? k = some b1 → res.trace.get? (k + 1) = some b2 →
      ∀ p1 ∈ b1.2, ∀ p2 ∈ b2.2, p1.pid = p2.pid → p1.pc ≤ p2.pc) ∧
    (∀ p ∈ res.pcbs, 0 ≤ p.pc ∧ p.pc ≤ p.total_work ∧
      (p.state = "Terminated" ↔ p.pc = p.total_work)) := by
  obtain ⟨hne, hall, hnodup⟩ := h
  have hInv := schedInv_initial pcbs hall hnodup
  refine ⟨?_, ?_, ?_⟩
  · intro b hb p hp
    obtain ⟨hwf, -, -⟩ := simLoop_blocks _ _ _ _ _ hrun hInv b hb
    obtain ⟨g1, g2, g3, g4⟩ := hwf p hp
    exact ⟨g2, g3, g4⟩
  · intro k b1 b2 h1 h2 p1 hp1 p2 hp2 hpid
    obtain ⟨hdlen, hdmem⟩ := simLoop_dispatches _ _ _ _ _ hrun hInv
    obtain ⟨i1, hd1, -⟩ := trace_at_dispatch res pcbs hdlen hdmem k b1 h1
    obtain ⟨i2, hd2, -⟩ := trace_at_dispatch res pcbs hdlen hdmem (k + 1) b2 h2
    have hadj := (simLoop_adjacent _ _ _ _ _ hrun hInv).2 k b1 b2 i1 i2 h1 h2 hd1 hd2
    exact (hadj p1 hp1 p2 hp2 hpid).2.2
  · intro p hp
    obtain ⟨g1, g2, g3, g4, -⟩ := simLoop_good _ _ _ _ _ hrun hInv p hp
    exact ⟨g2, g3, g4⟩

theorem C3_invariants_witness :
    (∀ b ∈ scenarioARun.trace, ∀ p ∈ b.2, 0 ≤ p.pc ∧ p.pc ≤ p.total_work ∧
      (p.state = "Terminated" ↔ p.pc = p.total_work)) ∧
    (∀ k b1 b2, scenarioARun.trace.get? k = some b1 →
      scenarioARun.trace.get? (k + 1) = some b2 →
      ∀ p1 ∈ b1.2, ∀ p2 ∈ b2.2, p1.pid = p2.pid → p1.pc ≤ p2.pc) ∧
    (∀ p ∈ scenarioARun.pcbs, 0 ≤ p.pc ∧ p.pc ≤ p.total_work ∧
      (p.state = "Terminated" ↔ p.pc = p.total_work)) :=
  C3_invariants [mkPCB 1 3, mkPCB 2 2] scenarioARun (by decide) scenarioARun_eq

/-- C4: dispatch is strictly FIFO. The initial ready queue is the arrival
order 0..n-1; on a tick with queue head i the dispatched process is i, for
every collection whatever its pids or remaining work (the dequeue choice
consults only queue order); the dispatched index is dropped from the head
and re-enqueued at the tail exactly when work remains; and renaming every
pid leaves the entire dispatch sequence of the loop unchanged. -/
theorem C4_fifo :
    (∀ (pcbs : List PCB) (q : Int) (fuel : Nat),
      kernelSimulator pcbs q fuel = simLoop q fuel pcbs (List.range pcbs.length) 0) ∧
    (∀ (q : Int) (pcbs : List PCB) (i : Nat) (rest : List Nat) (t : Nat),
      (tickStep q pcbs (i :: rest) t).dispatched = some i) ∧
    (∀ (q : Int) (pcbs : List PCB) (i : Nat) (rest : List Nat) (t : Nat),
      (tickStep q pcbs (i :: rest) t).readyQueue =
        if (pcbs.getD i dfltPCB).pc +
            min q ((pcbs.getD i dfltPCB).total_work - (pcbs.getD i dfltPCB).pc) <
            (pcbs.getD i dfltPCB).total_work
        then rest ++ [i] else rest) ∧
    (∀ (g : Nat → Int) (q : Int) (fuel : Nat) (pcbs : List PCB)
      (queue : List Nat) (t : Nat),
      (simLoop q fuel (setPids g pcbs) queue t).map SimResult.dispatches =
        (simLoop q fuel pcbs queue t).map SimResult.dispatches) := by
  refine ⟨fun pcbs q fuel => rfl,
    fun q pcbs i rest t => tickStep_dispatched_cons q pcbs i rest t, ?_,
    fun g q fuel pcbs queue t => simLoop_setPids g q fuel pcbs queue t⟩
  intro q pcbs i rest t
  by_cases hcond : (pcbs.getD i dfltPCB).pc +
      min q ((pcbs.getD i dfltPCB).total_work - (pcbs.getD i dfltPCB).pc) <
      (pcbs.getD i dfltPCB).total_work
  · rw [tickStep_cons_cont_eq q pcbs i rest t hcond, if_pos hcond]
  · rw [tickStep_cons_term_eq q pcbs i rest t (not_lt.mp hcond), if_neg hcond]

/-- The C5 claim as frozen is false on the code: on Scenario A's input the
second tick's trace differs from the first tick's trace in the state of TWO
records, not exactly one — pid 1 reverts from Running to Ready (it was
requeued after the first trace was printed) and pid 2 moves from Ready to
Terminated. -/
theorem C5_counterexample :
    kernelSimulator [mkPCB 1 3, mkPCB 2 2] 2 (totalWork [mkPCB 1 3, mkPCB 2 2]) =
      some scenarioARun ∧
    stateDiffs ((scenarioARun.trace.getD 0 (0, [])).2)
      ((scenarioARun.trace.getD 1 (0, [])).2) = 2 :=
  ⟨scenarioARun_eq, by decide⟩

/-- C5 amended: between consecutive trace blocks of a valid run, every
record whose pid is neither the earlier tick's dispatched pid nor the later
tick's dispatched pid is completely unchanged; every record other than the
later tick's dispatchee keeps its pc; and no pc decreases.  (Two records,
not one, may differ in state: the later dispatchee, and the earlier
dispatchee whose Running state was reverted to Ready after its trace.) -/
theorem C5_frame (pcbs : List PCB) (res : SimResult) (h : ValidStart pcbs)
    (hrun : kernelSimulator pcbs 2 (totalWork pcbs) = some res) :
    res.dispatches.length = res.trace.length ∧
    (∀ k b1 b2 i1 i2, res.trace.get? k = some b1 →
      res.trace.get? (k + 1) = some b2 →
      res.dispatches.get? k = some (some i1) →
      res.dispatches.get? (k + 1) = some (some i2) →
      ∀ p1 ∈ b1.2, ∀ p2 ∈ b2.2, p1.pid = p2.pid →
        ((p1.pid ≠ pidAt pcbs i1 ∧ p1.pid ≠ pidAt pcbs i2) → p1 = p2) ∧
        (p1.pid ≠ pidAt pcbs i2 → p1.pc = p2.pc) ∧ p1.pc ≤ p2.pc) := by
  obtain ⟨hne, hall, hnodup⟩ := h
  have hInv := schedInv_initial pcbs hall hnodup
  refine ⟨(simLoop_dispatches _ _ _ _ _ hrun hInv).1, ?_⟩
  intro k b1 b2 i1 i2 h1 h2 hd1 hd2
  exact (simLoop_adjacent _ _ _ _ _ hrun hInv).2 k b1 b2 i1 i2 h1 h2 hd1 hd2

theorem C5_frame_witness :
    scenarioARun.dispatches.length = scenarioARun.trace.length ∧
    (∀ k b1 b2 i1 i2, scenarioARun.trace.get? k = some b1 →
      scenarioARun.trace.get? (k + 1) = some b2 →
      scenarioARun.dispatches.get? k = some (some i1) →
      scenarioARun.dispatches.get? (k + 1) = some (some i2) →
      ∀ p1 ∈ b1.2, ∀ p2 ∈ b2.2, p1.pid = p2.pid →
        ((p1.pid ≠ pidAt [mkPCB 1 3, mkPCB 2 2] i1 ∧
          p1.pid ≠ pidAt [mkPCB 1 3, mkPCB 2 2] i2) → p1 = p2) ∧
        (p1.pid ≠ pidAt [mkPCB 1 3, mkPCB 2 2] i2 → p1.pc = p2.pc) ∧
        p1.pc ≤ p2.pc) :=
  C5_frame [mkPCB 1 3, mkPCB 2 2] scenarioARun (by decide) scenarioARun_eq

/-- C6: the run accepts the input (exit status 0, trace printed, closing
line emitted — Except.ok) exactly when the token stream passes every check
of ValidTokens: well-formed positive count, n well-formed pairs, positive
works, distinct pids; and it rejects with a diagnostic and no trace (exit
status 1 — Except.error, which carries no simulation output) exactly
otherwise. -/
theorem C6_validation (tokens : List (Option Int)) :
    ((∃ res, mainSim tokens = .ok res) ↔ ValidTokens tokens) ∧
    ((∃ e, mainSim tokens = .error e) ↔ ¬ ValidTokens tokens) :=
  ⟨mainSim_ok_iff tokens, mainSim_error_iff tokens⟩

/-- C7: every trace block of a valid run has exactly one line per process
(its pids are a permutation of the collection's pids) sorted by strictly
ascending pid; and printProcessStates itself only builds a fresh sorted
copy — a permutation of its read-only input — whatever the dispatch
order was. -/
theorem C7_trace_sorted (pcbs : List PCB) (res : SimResult) (h : ValidStart pcbs)
    (hrun : kernelSimulator pcbs 2 (totalWork pcbs) = some res) :
    (∀ b ∈ res.trace, (pidsOf b.2).Perm (pidsOf pcbs) ∧
      b.2.Pairwise (fun a c => a.pid < c.pid)) ∧
    (∀ (l : List PCB) (t : Nat),
      printProcessStates l t = (t, sortByPid l) ∧ (sortByPid l).Perm l) := by
  obtain ⟨hne, hall, hnodup⟩ := h
  have hInv := schedInv_initial pcbs hall hnodup
  refine ⟨?_, fun l t => ⟨rfl, sortByPid_perm l⟩⟩
  intro b hb
  obtain ⟨-, hle, hperm⟩ := simLoop_blocks _ _ _ _ _ hrun hInv b hb
  refine ⟨hperm, ?_⟩
  have hnd : (pidsOf b.2).Nodup := (hperm.nodup_iff).mpr hnodup
  have hne2 : b.2.Pairwise (fun a c => a.pid ≠ c.pid) := by
    unfold pidsOf at hnd
    exact List.pairwise_map.mp hnd
  exact (hle.and hne2).imp (fun h => lt_of_le_of_ne h.1 h.2)

theorem C7_trace_sorted_witness :
    (∀ b ∈ scenarioARun.trace,
      (pidsOf b.2).Perm (pidsOf [mkPCB 1 3, mkPCB 2 2]) ∧
      b.2.Pairwise (fun a c => a.pid < c.pid)) ∧
    (∀ (l : List PCB) (t : Nat),
      printProcessStates l t = (t, sortByPid l) ∧ (sortByPid l).Perm l) :=
  C7_trace_sorted [mkPCB 1 3, mkPCB 2 2] scenarioARun (by decide) scenarioARun_eq

/-- C9: the empty-ready-queue branch is unreachable on valid runs: under
the loop invariant a state with an unfinished process has a nonempty queue,
so every tick of a halted valid run dispatched exactly one in-range
process (no dispatch entry is none), one per trace block. -/
theorem C9_no_empty_tick (pcbs : List PCB) (res : SimResult) (h : ValidStart pcbs)
    (hrun : kernelSimulator pcbs 2 (totalWork pcbs) = some res) :
    res.dispatches.length = res.trace.length ∧
    (∀ d ∈ res.dispatches, ∃ i, d = some i ∧ i < pcbs.length) ∧
    (∀ (ps : List PCB) (qu : List Nat), SchedInv ps qu →
      allProcessesTerminated ps = false → qu ≠ []) := by
  obtain ⟨hne, hall, hnodup⟩ := h
  have hInv := schedInv_initial pcbs hall hnodup
  obtain ⟨h1, h2⟩ := simLoop_dispatches _ _ _ _ _ hrun hInv
  exact ⟨h1, h2, fun ps qu hi hna => queue_ne_nil hi hna⟩

theorem C9_no_empty_tick_witness :
    scenarioARun.dispatches.length = scenarioARun.trace.length ∧
    (∀ d ∈ scenarioARun.dispatches, ∃ i, d = some i ∧
      i < ([mkPCB 1 3, mkPCB 2 2] : List PCB).length) ∧
    (∀ (ps : List PCB) (qu : List Nat), SchedInv ps qu →
      allProcessesTerminated ps = false → qu ≠ []) :=
  C9_no_empty_tick [mkPCB 1 3, mkPCB 2 2] scenarioARun (by decide) scenarioARun_eq

/-- C10: ingestion constrains pids only by uniqueness: any list of entries
with positive works and pairwise distinct pids — zero and negative pid
values included — is accepted and simulated to completion (exit status 0). -/
theorem C10_pid_unconstrained (ps : List (Int × Int)) (hne : ps ≠ [])
    (hw : ∀ pw ∈ ps, 0 < pw.2)
    (hnd : (ps.map (fun pw => pw.1)).Nodup) :
    ∃ res, mainSim (some (ps.length : Int) :: encodePairs ps) = .ok res := by
  apply mainSim_ok_of_valid
  refine ⟨(ps.length : Int), encodePairs ps, ps, [], rfl, ?_, ?_, hw, hnd⟩
  · have : 0 < ps.length := List.length_pos.mpr hne
    exact_mod_cast this
  · rw [Int.toNat_ofNat]
    exact takePairs_encode ps

theorem C10_pid_unconstrained_witness :
    ∃ res, mainSim (some (([((0 : Int), (3 : Int)),
      ((-5 : Int), (2 : Int))].length : Int)) ::
      encodePairs [((0 : Int), (3 : Int)), ((-5 : Int), (2 : Int))]) = .ok res :=
  C10_pid_unconstrained [((0 : Int), (3 : Int)), ((-5 : Int), (2 : Int))]
    (by decide) (by decide) (by decide)
